import Mathlib

/-!
Verification of the graph engine and priority queue of `python-tools`
(`src/data_structures/queues.py`, `src/data_structures/graphs/graph.py`,
`src/data_structures/graphs/info.py`) against its specification.

The Python code is shallowly embedded: lists model the heap's backing
array, association lists (in insertion order, as Python 3.7+ dicts keep)
model the adjacency mapping, `Except` models raised exceptions, and
`WithTop ℤ` models `math.inf`-initialized distance labels.  Recursive
procedures carry explicit fuel chosen at the call sites exactly as large
as the Python recursion depth, so every definition computes by kernel
reduction.
-/

set_option autoImplicit false
set_option linter.unusedSectionVars false

namespace PyTools

/-! ## Priority queue (`queues.py`, class PriorityQueue)

The queue object holds `_container` (a Python list), `_key` and
`_reverse`.  We model the container as a `List α` and pass the key
function and the reverse flag to every operation, which also models the
fact that `_key` is a closure evaluated at comparison time (`dijkstra`
relies on that: its key reads the mutable `labels` dict). -/

variable {α : Type} [Inhabited α] {κ : Type} [LinearOrder κ]

/-- `self._container[i]`: list indexing (always in bounds in the source;
we default out-of-range reads). -/
def nth (l : List α) (i : ℕ) : α :=
  l.getD i default

/-- `self._container[i], self._container[j] = self._container[j], self._container[i]`. -/
def swapL (l : List α) (i j : ℕ) : List α :=
  (l.set i (nth l j)).set j (nth l i)

/-- `_compare(a, b)` unfolded: `self._gt(key(x), key(y))` where `_gt` is
`operator.lt` when `reverse` else `operator.gt`.  `dom key reverse a b`
holds when `a`'s key strictly dominates `b`'s under the configured
ordering. -/
def dom (key : α → κ) (reverse : Bool) (a b : α) : Prop :=
  if reverse then key a < key b else key b < key a

instance (key : α → κ) (reverse : Bool) (a b : α) : Decidable (dom key reverse a b) := by
  unfold dom
  exact inferInstance

/-- `_parent_of(i)`, which is `floor((i-1)/2)`; in Python `_parent_of 0 = -1`,
an index `_in_heap` rejects, and the operations below test `0 < i`
accordingly. -/
def parentIdx (i : ℕ) : ℕ :=
  (i - 1) / 2

/-- `_sift_up`, with structural fuel; `fuel ≥ i` makes it the Python
recursion (each step moves to the strictly smaller parent index). -/
def siftUpF (key : α → κ) (reverse : Bool) : ℕ → List α → ℕ → List α
  | 0, l, _ => l
  | fuel + 1, l, i =>
    if 0 < i ∧ i < l.length ∧ dom key reverse (nth l i) (nth l (parentIdx i)) then
      siftUpF key reverse fuel (swapL l i (parentIdx i)) (parentIdx i)
    else l

/-- `_sift_up(i)` as called on a container `l` (fuel `i` suffices). -/
def siftUp (key : α → κ) (reverse : Bool) (l : List α) (i : ℕ) : List α :=
  siftUpF key reverse i l i

/-- `_sift_down`, with structural fuel; `fuel + i + 1 ≥ l.length` makes it
the Python recursion (each step moves to a strictly larger child index
that is still in the heap). -/
def siftDownF (key : α → κ) (reverse : Bool) : ℕ → List α → ℕ → List α
  | 0, l, _ => l
  | fuel + 1, l, i =>
    if 2 * i + 2 < l.length ∧ dom key reverse (nth l (2 * i + 2)) (nth l (2 * i + 1)) then
      if dom key reverse (nth l (2 * i + 2)) (nth l i) then
        siftDownF key reverse fuel (swapL l i (2 * i + 2)) (2 * i + 2)
      else l
    else if 2 * i + 1 < l.length then
      if dom key reverse (nth l (2 * i + 1)) (nth l i) then
        siftDownF key reverse fuel (swapL l i (2 * i + 1)) (2 * i + 1)
      else l
    else l

/-- `_sift_down(i)` as called on a container `l`. -/
def siftDown (key : α → κ) (reverse : Bool) (l : List α) (i : ℕ) : List α :=
  siftDownF key reverse l.length l i

/-- `_heapify()`: `for i in range(self._parent_of(len(self)), -1, -1): self._sift_down(i)`. -/
def heapify (key : α → κ) (reverse : Bool) (l : List α) : List α :=
  (List.range ((l.length - 1) / 2 + 1)).reverse.foldl (siftDown key reverse) l

/-- `push(item)`: append, then sift the last position up. -/
def pushPQ (key : α → κ) (reverse : Bool) (l : List α) (x : α) : List α :=
  siftUp key reverse (l ++ [x]) l.length

/-- `remove(index)`: overwrite with the last element, shrink, then sift
up and down from `index`.  On an empty queue or an out-of-range index the
source raises (`ValueError` / `IndexError`) before mutating anything, so
the state is returned unchanged. -/
def removeAt (key : α → κ) (reverse : Bool) (l : List α) (i : ℕ) : List α :=
  if l.isEmpty then l
  else if i < l.length then
    siftDown key reverse (siftUp key reverse ((l.set i (nth l (l.length - 1))).dropLast) i) i
  else l

/-- `pop()`: result and state after.  On an empty queue the source raises
before mutating. -/
def popPQ (key : α → κ) (reverse : Bool) (l : List α) : Option α × List α :=
  if l.isEmpty then (none, l) else (some (nth l 0), removeAt key reverse l 0)

/-- `top()`. -/
def topPQ (l : List α) : Option α :=
  if l.isEmpty then none else some (nth l 0)

/-- `find(item)`: `list.index`, with `-1` on failure. -/
def findPQ [DecidableEq α] (l : List α) (x : α) : Int :=
  match l.findIdx? (fun e => e = x) with
  | some k => (k : Int)
  | none => -1

/-- `view()`: `tuple(self._container)` — a copy of the raw backing array,
which in this functional model is the container itself. -/
def viewPQ (l : List α) : List α :=
  l

/-- One public mutating call on the queue. -/
inductive PQOp (α : Type) where
  | push (x : α)
  | pop
  | remove (i : ℕ)

/-- The state change of one call (a raising `pop`/`remove` leaves the
container untouched, as the source checks before mutating). -/
def stepPQ (key : α → κ) (reverse : Bool) (l : List α) : PQOp α → List α
  | .push x => pushPQ key reverse l x
  | .pop => (popPQ key reverse l).2
  | .remove i => removeAt key reverse l i

/-- Construction from an initial collection (appended then `_heapify`-ed)
followed by any sequence of `push`/`pop`/`remove` calls. -/
def runPQ (key : α → κ) (reverse : Bool) (init : List α) (ops : List (PQOp α)) : List α :=
  ops.foldl (stepPQ key reverse) (heapify key reverse init)

/-- The heap invariant, stated through parents: no element strictly
dominates its parent. -/
def IsHeap (key : α → κ) (reverse : Bool) (l : List α) : Prop :=
  ∀ j, j < l.length → 0 < j → ¬ dom key reverse (nth l j) (nth l (parentIdx j))

/-- The heap invariant as the spec words it: the key at a position with
children is not dominated by the key of either child. -/
def NoChildDom (key : α → κ) (reverse : Bool) (l : List α) : Prop :=
  ∀ i, (2 * i + 1 < l.length → ¬ dom key reverse (nth l (2 * i + 1)) (nth l i)) ∧
    (2 * i + 2 < l.length → ¬ dom key reverse (nth l (2 * i + 2)) (nth l i))

/-- Popping a copy until empty (`__str__` does this); fuel `l.length`
covers the run. -/
def popListF (key : α → κ) (reverse : Bool) : ℕ → List α → List α
  | 0, _ => []
  | fuel + 1, l => if l.isEmpty then [] else nth l 0 :: popListF key reverse fuel (removeAt key reverse l 0)

/-- The sequence obtained by repeatedly popping a copy of the queue. -/
def popList (key : α → κ) (reverse : Bool) (l : List α) : List α :=
  popListF key reverse l.length l

instance (key : α → κ) (reverse : Bool) (l : List α) : Decidable (IsHeap key reverse l) := by
  unfold IsHeap
  exact Nat.decidableBallLT _ _

/-! ## Vertex/Edge model (`info.py`)

`Vertex.__eq__`/`__hash__` identify a vertex with its value, so a vertex
is modelled by its value (a natural number) and the graph's
`_adjacency_map` by an association list in insertion order (Python dicts
preserve it).  A vertex's `_edges` set is a list in insertion order with
the set's membership test. -/

/-- `UndirectedEdge`: origin value, destination value, weight. -/
structure UEdge where
  origin : ℕ
  dest : ℕ
  weight : ℤ
deriving DecidableEq

/-- `UndirectedEdge.__eq__(self, other)` exactly as written:
`isinstance(other, UndirectedEdge) and self.origin == other.destination
and self.destination == other.origin and self.weight == other.weight`.
Note it compares origin with the OTHER edge's destination only: it never
checks the same-direction case. -/
def edgeEqb (e₁ e₂ : UEdge) : Bool :=
  e₁.origin == e₂.dest && e₁.dest == e₂.origin && e₁.weight == e₂.weight

/-- `UndirectedEdge.__hash__`:
`hash(type(self).__name__) + hash(self.origin) + hash(self.destination) + hash(self.weight)`,
with Python's primitive hashes abstracted as `ht` (the type name's hash),
`hv` (a vertex's hash, a function of its value alone) and `hw` (a
weight's hash). -/
def edgeHash (ht : ℤ) (hv : ℕ → ℤ) (hw : ℤ → ℤ) (e : UEdge) : ℤ :=
  ht + hv e.origin + hv e.dest + hw e.weight

/-- `set.add(e)` on a set of `UndirectedEdge`: kept unchanged when an
element equal to `e` (by `UndirectedEdge.__eq__`) is present, appended
otherwise. -/
def pySetAdd (s : List UEdge) (e : UEdge) : List UEdge :=
  if s.any (fun x => edgeEqb x e) then s else s ++ [e]

/-- The errors `graph.py` raises (both are `GraphError` instances,
distinguished by their message). -/
inductive GraphErr where
  | vertexNotFound
  | negativeWeightCycle
deriving DecidableEq

deriving instance DecidableEq for Except

/-- The graph: `_adjacency_map` (vertex value ↦ that vertex's incident
edge set) and `_root`. -/
structure Graph where
  adj : List (ℕ × List UEdge)
  root : Option ℕ
deriving DecidableEq

/-- `vertex_value in self`. -/
def containsG (g : Graph) (v : ℕ) : Bool :=
  (g.adj.lookup v).isSome

/-- The incident edge set of the vertex mapped to `v` (empty when absent;
callers check presence first, as the source raises there). -/
def edgeListOf (g : Graph) (v : ℕ) : List UEdge :=
  match g.adj.lookup v with
  | some es => es
  | none => []

/-- `self._adjacency_map[v] = vertexObject`: replace in place when the key
exists (keeping its position, as Python dicts do), append otherwise. -/
def setAdj : List (ℕ × List UEdge) → ℕ → List UEdge → List (ℕ × List UEdge)
  | [], v, es => [(v, es)]
  | (k, old) :: rest, v, es =>
    if k = v then (v, es) :: rest else (k, old) :: setAdj rest v es

/-- Mutate the edge set of an existing vertex in place. -/
def updateAdj : List (ℕ × List UEdge) → ℕ → (List UEdge → List UEdge) → List (ℕ × List UEdge)
  | [], _, _ => []
  | (k, old) :: rest, v, f =>
    if k = v then (k, f old) :: rest else (k, old) :: updateAdj rest v f

/-- `UndirectedGraph.add_edge(origin, dst, weight)`: looks both vertices
up (raising `VertexNotFound` before any mutation), then adds the
`outgoing` copy to the origin's set and the `incoming` copy to the
destination's set.  Returns the raised error (if any) and the graph
state at method exit. -/
def addEdge (g : Graph) (o d : ℕ) (w : ℤ) : Except GraphErr Unit × Graph :=
  if ¬ containsG g o then (.error .vertexNotFound, g)
  else if ¬ containsG g d then (.error .vertexNotFound, g)
  else
    let adj₁ := updateAdj g.adj o (fun s => pySetAdd s ⟨o, d, w⟩)
    let adj₂ := updateAdj adj₁ d (fun s => pySetAdd s ⟨d, o, w⟩)
    (.ok (), { adj := adj₂, root := g.root })

/-- `add_vertex(value, dst, weight)`: reuses the vertex mapped to `value`
(or creates a fresh one), sets the root on first insertion, assigns
`map[value]`; when `dst` is given it assigns `map[dst] = VertexType(dst)`
— a FRESH vertex with an empty edge set, even when `dst` already existed
— and then calls `add_edge` (which cannot fail at that point). -/
def addVertex (g : Graph) (nv : ℕ) (dst : Option ℕ) (w : ℤ) : Graph :=
  let originEdges := match g.adj.lookup nv with
    | some es => es
    | none => []
  let root' := if g.adj.isEmpty then some nv else g.root
  let adj₁ := setAdj g.adj nv originEdges
  match dst with
  | none => { adj := adj₁, root := root' }
  | some d =>
    let g₂ : Graph := { adj := setAdj adj₁ d [], root := root' }
    (addEdge g₂ nv d w).2

/-- `has_edge(origin, dst, weight)`: looks both vertices up (raising
`VertexNotFound`), builds the probe edge and tests membership in the
origin's incident set with `UndirectedEdge.__eq__`. -/
def hasEdge (g : Graph) (o d : ℕ) (w : ℤ) : Except GraphErr Bool × Graph :=
  if ¬ containsG g o then (.error .vertexNotFound, g)
  else if ¬ containsG g d then (.error .vertexNotFound, g)
  else ((.ok ((edgeListOf g o).any (fun x => edgeEqb x ⟨o, d, w⟩))), g)

/-- `self.vertices()` (dict value order = insertion order), by value. -/
def vertexValues (g : Graph) : List ℕ :=
  g.adj.map Prod.fst

/-- `sorted(self.vertices(), key=lambda x: x.value)`. -/
def sortedAdj (g : Graph) : List (ℕ × List UEdge) :=
  g.adj.insertionSort (fun a b => a.1 ≤ b.1)

/-- `edges()`: `functools.reduce(set.union, (v.outgoing_edges for v in
sorted(...)), set())` — a union that keeps, of each pair of directional
copies, the copy inserted first (set union adds only elements not equal
to one already present). -/
def edgesG (g : Graph) : List UEdge :=
  (sortedAdj g).foldl (fun acc p => p.2.foldl pySetAdd acc) []

/-- `_dfs_is_reachable(root, destination, explored)`: the shared
`explored` set threads through, and the disjunction short-circuits as the
source's `break` does.  Fuel bounds the recursion depth (each recursive
call is on an unexplored vertex, so `|V| + 1` suffices). -/
def dfsReach (g : Graph) : ℕ → ℕ → ℕ → List ℕ → Bool × List ℕ
  | 0, _, _, ex => (false, ex)
  | fuel + 1, root, dstV, ex =>
    if root = dstV then (true, ex)
    else
      let ex₁ := if root ∈ ex then ex else ex ++ [root]
      (edgeListOf g root).foldl
        (fun st e =>
          if st.1 then st
          else if e.dest ∈ st.2 then st
          else dfsReach g fuel e.dest dstV st.2)
        (false, ex₁)

/-- `is_reachable(origin, destination)`: both lookups first (raising
`VertexNotFound`), then the depth-first search. -/
def isReachable (g : Graph) (o d : ℕ) : Except GraphErr Bool × Graph :=
  if ¬ containsG g o then (.error .vertexNotFound, g)
  else if ¬ containsG g d then (.error .vertexNotFound, g)
  else ((.ok (dfsReach g (g.adj.length + 1) o d []).1), g)

/-- The labels `bellman_ford` (and `dijkstra`) start from. -/
def initL (o : ℕ) : ℕ → WithTop ℤ :=
  fun v => if v = o then 0 else ⊤

/-- Path reconstruction: `while start is not None: result.appendleft(start);
start = parents[start]`.  Fuel bounds the loop; the parent chains our
theorems touch are shorter than the fuel the call sites pass. -/
def buildPath (par : ℕ → Option ℕ) : ℕ → ℕ → List ℕ
  | 0, v => [v]
  | fuel + 1, v =>
    match par v with
    | none => [v]
    | some p => buildPath par fuel p ++ [v]

/-- The body of `dijkstra`'s `while table:` loop.  The state carries the
graph (`self`, read for each popped vertex's `outgoing_edges`), the
`labels` and `parents` dicts and the queue's container.  Every queue
operation receives the CURRENT labels as its key, because the queue was
built with `key=lambda v: labels[v]` over the mutable dict, and
`reverse=True` (a min-heap). -/
def dijkstraLoop : ℕ → Graph × (ℕ → WithTop ℤ) × (ℕ → Option ℕ) × List ℕ →
    Graph × (ℕ → WithTop ℤ) × (ℕ → Option ℕ)
  | 0, st => (st.1, st.2.1, st.2.2.1)
  | fuel + 1, st =>
    let g := st.1
    let table := st.2.2.2
    if table.isEmpty then (g, st.2.1, st.2.2.1)
    else
      let start := nth table 0
      let table₁ := removeAt (fun v => st.2.1 v) true table 0
      let st₁ := (edgeListOf g start).foldl
        (fun (acc : (ℕ → WithTop ℤ) × (ℕ → Option ℕ) × List ℕ) e =>
          let idx := findPQ acc.2.2 e.dest
          if idx ≠ -1 then
            let wd := acc.1 start + (e.weight : WithTop ℤ)
            if wd < acc.1 e.dest then
              let labels' := fun v => if v = e.dest then wd else acc.1 v
              let table' := pushPQ (fun v => labels' v) true
                (removeAt (fun v => labels' v) true acc.2.2 idx.toNat) e.dest
              let parents' := fun v => if v = e.dest then some start else acc.2.1 v
              (labels', parents', table')
            else acc
          else acc)
        (st.2.1, st.2.2.1, table₁)
      dijkstraLoop fuel (g, st₁)

/-- `dijkstra(origin, destination)`: initialize labels (`inf` everywhere,
`0` at the origin — raising `VertexNotFound` when it is absent), seed a
min-heap priority queue with all vertices keyed by current label, run the
loop, then reconstruct from `parents` backwards from the destination
(raising `VertexNotFound` when it is absent).  Returns the result and the
graph state at method exit. -/
def dijkstra (g : Graph) (o d : ℕ) : Except GraphErr (List ℕ) × Graph :=
  if ¬ containsG g o then (.error .vertexNotFound, g)
  else
    let L₀ : ℕ → WithTop ℤ := initL o
    let P₀ : ℕ → Option ℕ := fun _ => none
    let T₀ := heapify (fun v => L₀ v) true (vertexValues g)
    let res := dijkstraLoop (vertexValues g).length (g, L₀, P₀, T₀)
    if ¬ containsG res.1 d then (.error .vertexNotFound, res.1)
    else (.ok (buildPath res.2.2 (res.1.adj.length + 1) d), res.1)

/-- One relaxation, `bellman_ford`'s inner `for edge in self.edges()`
body: `if labels[start] + weight < labels[end]` then update label and
parent. -/
def relaxBF (st : (ℕ → WithTop ℤ) × (ℕ → Option ℕ)) (e : UEdge) :
    (ℕ → WithTop ℤ) × (ℕ → Option ℕ) :=
  if st.1 e.origin + (e.weight : WithTop ℤ) < st.1 e.dest then
    (fun v => if v = e.dest then st.1 e.origin + (e.weight : WithTop ℤ) else st.1 v,
     fun v => if v = e.dest then some e.origin else st.2 v)
  else st

/-- `bellman_ford`'s `while i < stop_limit` loop: each round recomputes
`self.edges()` from the carried graph and relaxes every edge in order. -/
def bfRounds : ℕ → Graph × (ℕ → WithTop ℤ) × (ℕ → Option ℕ) →
    Graph × (ℕ → WithTop ℤ) × (ℕ → Option ℕ)
  | 0, st => st
  | k + 1, st => bfRounds k (st.1, (edgesG st.1).foldl relaxBF st.2)

/-- `bellman_ford(origin, destination)`: labels as in `dijkstra`,
`len(self) - 1` relaxation rounds, then the detection sweep
`all(labels[e.destination] <= labels[e.origin] + e.weight  for e in
self.edges())`; on success the destination is looked up (raising
`VertexNotFound` when absent) and the path reconstructed, otherwise
`GraphError('negative-weight cycle')` is raised. -/
def bellmanFord (g : Graph) (o d : ℕ) : Except GraphErr (List ℕ) × Graph :=
  if ¬ containsG g o then (.error .vertexNotFound, g)
  else
    let L₀ : ℕ → WithTop ℤ := initL o
    let P₀ : ℕ → Option ℕ := fun _ => none
    let res := bfRounds (g.adj.length - 1) (g, L₀, P₀)
    let L := res.2.1
    if (edgesG res.1).all (fun e => decide (L e.dest ≤ L e.origin + (e.weight : WithTop ℤ))) then
      if ¬ containsG res.1 d then (.error .vertexNotFound, res.1)
      else (.ok (buildPath res.2.2 (res.1.adj.length + 1) d), res.1)
    else (.error .negativeWeightCycle, res.1)

/-- The weight of the stored edge from `u` toward `v` (0 when none; used
only on paths whose consecutive pairs are joined by an edge). -/
def edgeWeightBetween (g : Graph) (u v : ℕ) : ℤ :=
  match (edgeListOf g u).find? (fun e => e.dest == v) with
  | some e => e.weight
  | none => 0

/-- Total weight of a vertex sequence: the sum of the weights of the
edges joining its consecutive vertices. -/
def pathWeight (g : Graph) : List ℕ → ℤ
  | [] => 0
  | [_] => 0
  | u :: v :: rest => edgeWeightBetween g u v + pathWeight g (v :: rest)

/-- Each consecutive pair of the sequence is joined by a stored edge. -/
def isWalkB (g : Graph) : List ℕ → Bool
  | [] => true
  | [_] => true
  | u :: v :: rest => (edgeListOf g u).any (fun e => e.dest == v) && isWalkB g (v :: rest)

/-- Well-formedness of the adjacency mapping: distinct keys; every stored
copy is rooted at its owner, is no self-loop, and has its reverse copy
stored at the other endpoint (the mirror invariant `add_edge` alone
maintains; `add_vertex`'s destination wipe can break it). -/
def WFgraph (g : Graph) : Prop :=
  (g.adj.map Prod.fst).Nodup ∧
    ∀ p ∈ g.adj, ∀ e ∈ p.2, e.origin = p.1 ∧ e.origin ≠ e.dest ∧
      ∃ q ∈ g.adj, q.1 = e.dest ∧ (UEdge.mk e.dest e.origin e.weight) ∈ q.2

instance (g : Graph) : Decidable (WFgraph g) := by
  unfold WFgraph
  exact inferInstance

/-- How many graph vertices have a value below `v`: the rank of `v` in
the total order the deduplicated edge list `edges()` is oriented by. -/
def rankV (V : List ℕ) (v : ℕ) : ℕ :=
  V.countP (fun u => decide (u < v))

/-- The exact relaxation fixpoint over an edge list whose edges all go
strictly upward in vertex value: the least label each vertex can reach.
The upward guard in the filter makes the recursion well-founded; when
every edge of `E` satisfies it the guard filters nothing away. -/
def Fdist (E : List UEdge) (o : ℕ) (v : ℕ) : WithTop ℤ :=
  min (initL o v)
    (((E.filter (fun e => e.dest == v && decide (e.origin < v))).attach.map
      (fun e => Fdist E o e.1.origin + (e.1.weight : WithTop ℤ))).foldr min ⊤)
termination_by v
decreasing_by
  have hm := List.of_mem_filter e.2
  simp only [Bool.and_eq_true, beq_iff_eq, decide_eq_true_eq] at hm
  exact hm.2

/-! ## Concrete graphs used by the claim theorems (all built through the
public construction API, starting from an empty graph). -/

/-- The empty graph `UndirectedGraph()`. -/
def g0 : Graph := { adj := [], root := none }

/-- Vertices 1 and 2 and the edge (1, 2) of weight 0. -/
def gE0 : Graph := (addEdge (addVertex (addVertex g0 1 none 0) 2 none 0) 1 2 0).2

/-- Vertices 1 and 2 and the edge (1, 2) of weight 5. -/
def gW5 : Graph := (addEdge (addVertex (addVertex g0 1 none 0) 2 none 0) 1 2 5).2

/-- Vertices 1 and 2 and the edge (1, 2) of weight -5: its undirected
cycle 1-2-1 has total weight -10. -/
def gNeg : Graph := (addEdge (addVertex (addVertex g0 1 none 0) 2 none 0) 1 2 (-5)).2

/-- `gNeg` after `add_vertex(3, dst=1, weight=0)` (which wipes vertex 1's
incident set) and `add_edge(1, 2, 3)`: its deduplicated edge list carries
the directed cycle 1→2 (weight 3), 2→1 (weight -5) of total weight -2. -/
def gBroken : Graph := (addEdge (addVertex gNeg 3 (some 1) 0) 1 2 3).2

/-- Vertices 1, 2 with edge (1, 2) of weight 7, before the wiping call. -/
def gPre9 : Graph := (addEdge (addVertex (addVertex g0 1 none 0) 2 none 0) 1 2 7).2

/-- `gPre9` after `add_vertex(3, dst=1, weight=2)`. -/
def gPost9 : Graph := addVertex gPre9 3 (some 1) 2

/-! ## Lemmas: the comparison predicate

`dom` comes from a linear order through the key function, in either
direction, so domination is asymmetric and its complement is a total
preorder. -/

theorem not_dom_refl (key : α → κ) (reverse : Bool) (a : α) : ¬ dom key reverse a a := by
  unfold dom
  cases reverse <;> simp

theorem dom_asymm {key : α → κ} {reverse : Bool} {a b : α}
    (h : dom key reverse a b) : ¬ dom key reverse b a := by
  unfold dom at *
  cases reverse <;> simp only [if_true, if_false, Bool.false_eq_true] at * <;>
    exact lt_asymm h

theorem not_dom_trans {key : α → κ} {reverse : Bool} {a b c : α}
    (h₁ : ¬ dom key reverse a b) (h₂ : ¬ dom key reverse b c) : ¬ dom key reverse a c := by
  unfold dom at *
  cases reverse <;> simp only [if_true, if_false, Bool.false_eq_true, not_lt] at *
  · exact le_trans h₁ h₂
  · exact le_trans h₂ h₁

theorem not_dom_of_not_dom_dom {key : α → κ} {reverse : Bool} {a b c : α}
    (h₁ : ¬ dom key reverse a b) (h₂ : dom key reverse c b) : ¬ dom key reverse a c := by
  unfold dom at *
  cases reverse <;> simp only [if_true, if_false, Bool.false_eq_true, not_lt] at *
  · exact le_trans h₁ (le_of_lt h₂)
  · exact le_of_lt (lt_of_lt_of_le h₂ h₁)

theorem not_dom_of_dom_not_dom {key : α → κ} {reverse : Bool} {a b c : α}
    (h₁ : ¬ dom key reverse a b) (h₂ : dom key reverse a c) : ¬ dom key reverse c b := by
  unfold dom at *
  cases reverse <;> simp only [if_true, if_false, Bool.false_eq_true, not_lt] at *
  · exact le_trans (le_of_lt h₂) h₁
  · exact le_trans h₁ (le_of_lt h₂)

/-! ## Lemmas: indices and list access -/

theorem parentIdx_lt {j : ℕ} (h : 0 < j) : parentIdx j < j := by
  unfold parentIdx
  omega

theorem parentIdx_left (i : ℕ) : parentIdx (2 * i + 1) = i := by
  unfold parentIdx
  omega

theorem parentIdx_right (i : ℕ) : parentIdx (2 * i + 2) = i := by
  unfold parentIdx
  omega

theorem child_cases {i j : ℕ} (h0 : 0 < j) (hp : parentIdx j = i) :
    j = 2 * i + 1 ∨ j = 2 * i + 2 := by
  unfold parentIdx at hp
  omega

theorem nth_set_self {l : List α} {i : ℕ} {x : α} (h : i < l.length) :
    nth (l.set i x) i = x := by
  simp [nth, List.getElem?_set_self h]

theorem nth_set_ne {l : List α} {i j : ℕ} {x : α} (h : i ≠ j) :
    nth (l.set i x) j = nth l j := by
  simp [nth, List.getElem?_set_ne h]

theorem length_swapL (l : List α) (i j : ℕ) : (swapL l i j).length = l.length := by
  simp [swapL]

theorem nth_swapL_fst {l : List α} {i j : ℕ} (hi : i < l.length) (hj : j < l.length) :
    nth (swapL l i j) i = nth l j := by
  unfold swapL
  by_cases h : j = i
  · subst h
    rw [nth_set_self (by simpa using hj)]
  · rw [nth_set_ne h, nth_set_self hi]

theorem nth_swapL_snd {l : List α} {i j : ℕ} (hj : j < l.length) :
    nth (swapL l i j) j = nth l i := by
  unfold swapL
  rw [nth_set_self (by simpa using hj)]

theorem nth_swapL_other {l : List α} {i j k : ℕ} (hki : k ≠ i) (hkj : k ≠ j) :
    nth (swapL l i j) k = nth l k := by
  unfold swapL
  rw [nth_set_ne (Ne.symm hkj), nth_set_ne (Ne.symm hki)]

theorem nth_append_left {l : List α} {x : α} {j : ℕ} (h : j < l.length) :
    nth (l ++ [x]) j = nth l j := by
  simp [nth, List.getElem?_append_left h]

theorem nth_concat_self (l : List α) (x : α) : nth (l ++ [x]) l.length = x := by
  simp [nth, List.getElem?_concat_length]

theorem nth_dropLast {l : List α} {j : ℕ} (h : j < l.length - 1) :
    nth l.dropLast j = nth l j := by
  simp only [nth, List.getD_eq_getElem?_getD, List.getElem?_dropLast]
  rw [if_pos h]

theorem length_siftUpF (key : α → κ) (reverse : Bool) :
    ∀ (fuel : ℕ) (l : List α) (i : ℕ), (siftUpF key reverse fuel l i).length = l.length := by
  intro fuel
  induction fuel with
  | zero => intro l i; rfl
  | succ fuel ih =>
    intro l i
    simp only [siftUpF]
    split
    · rw [ih, length_swapL]
    · rfl

theorem length_siftDownF (key : α → κ) (reverse : Bool) :
    ∀ (fuel : ℕ) (l : List α) (i : ℕ), (siftDownF key reverse fuel l i).length = l.length := by
  intro fuel
  induction fuel with
  | zero => intro l i; rfl
  | succ fuel ih =>
    intro l i
    simp only [siftDownF]
    split
    · split
      · rw [ih, length_swapL]
      · rfl
    · split
      · split
        · rw [ih, length_swapL]
        · rfl
      · rfl

/-! ## Lemmas: `_sift_up` restores the invariant

Precondition: every parent-child pair other than the one above `i`
satisfies the invariant (children of `i` included), and no child of `i`
dominates `i`'s parent.  The Python recursion then re-establishes the
full invariant. -/

theorem isHeap_siftUpF (key : α → κ) (reverse : Bool) :
    ∀ (fuel i : ℕ) (l : List α), i ≤ fuel →
      (∀ j, j < l.length → 0 < j → j ≠ i →
        ¬ dom key reverse (nth l j) (nth l (parentIdx j))) →
      (0 < i → ∀ j, j < l.length → parentIdx j = i →
        ¬ dom key reverse (nth l j) (nth l (parentIdx i))) →
      IsHeap key reverse (siftUpF key reverse fuel l i) := by
  intro fuel
  induction fuel with
  | zero =>
    intro i l hif hAl hG
    have hi : i = 0 := Nat.le_zero.mp hif
    subst hi
    intro j hj hj0
    exact hAl j hj hj0 (by omega)
  | succ fuel ih =>
    intro i l hif hAl hG
    simp only [siftUpF]
    by_cases hc : 0 < i ∧ i < l.length ∧ dom key reverse (nth l i) (nth l (parentIdx i))
    · rw [if_pos hc]
      obtain ⟨hi0, hilen, hdom⟩ := hc
      have hpi : parentIdx i < i := parentIdx_lt hi0
      have hplen : parentIdx i < l.length := lt_trans hpi hilen
      apply ih (parentIdx i) _ (by omega)
      · -- all pairs not above `parentIdx i` hold after the swap
        intro j hj hj0 hjp
        rw [length_swapL] at hj
        by_cases hji : j = i
        · subst hji
          rw [nth_swapL_fst hilen hplen, nth_swapL_snd hplen]
          exact dom_asymm hdom
        · by_cases hpj : parentIdx j = i
          · rw [nth_swapL_other hji hjp, hpj, nth_swapL_fst hilen hplen]
            exact hG hi0 j hj hpj
          · by_cases hpjp : parentIdx j = parentIdx i
            · rw [nth_swapL_other hji hjp, hpjp, nth_swapL_snd hplen]
              have h₁ := hAl j hj hj0 hji
              rw [hpjp] at h₁
              exact not_dom_of_not_dom_dom h₁ hdom
            · rw [nth_swapL_other hji hjp, nth_swapL_other hpj hpjp]
              exact hAl j hj hj0 hji
      · -- no child of `parentIdx i` dominates its parent after the swap
        intro hp0 j hj hpj
        rw [length_swapL] at hj
        have hgp : parentIdx (parentIdx i) < parentIdx i := parentIdx_lt hp0
        have hrhs : nth (swapL l i (parentIdx i)) (parentIdx (parentIdx i)) =
            nth l (parentIdx (parentIdx i)) := nth_swapL_other (by omega) (by omega)
        by_cases hji : j = i
        · subst hji
          have hlhs : nth (swapL l j (parentIdx j)) j = nth l (parentIdx j) :=
            nth_swapL_fst hilen hplen
          rw [hlhs, hrhs]
          exact hAl (parentIdx j) hplen hp0 (ne_of_lt hpi)
        · have hj0 : 0 < j := by
            rcases Nat.eq_zero_or_pos j with h0 | h0
            · exfalso
              rw [h0, show parentIdx 0 = 0 from rfl] at hpj
              omega
            · exact h0
          have hjp' : j ≠ parentIdx i := by
            have := parentIdx_lt hj0
            omega
          have hlhs : nth (swapL l i (parentIdx i)) j = nth l j := nth_swapL_other hji hjp'
          rw [hlhs, hrhs]
          have h₁ := hAl j hj hj0 hji
          rw [hpj] at h₁
          exact not_dom_trans h₁ (hAl (parentIdx i) hplen hp0 (ne_of_lt hpi))
    · rw [if_neg hc]
      intro j hj hj0
      by_cases hji : j = i
      · subst hji
        exact fun hd => hc ⟨hj0, hj, hd⟩
      · exact hAl j hj hj0 hji

/-! ## Lemmas: `_sift_down` restores the invariant on a region

The region is the set of parent-child pairs whose parent position is at
least `b`; `_heapify` grows it bottom-up, and `b = 0` is the full
invariant.  Precondition: every pair of the region holds except possibly
the two below `i`, and no child of `i` dominates `i`'s parent. -/

theorem reg_siftDownF (key : α → κ) (reverse : Bool) (b : ℕ) :
    ∀ (fuel i : ℕ) (l : List α), l.length ≤ fuel + i + 1 → b ≤ i →
      (∀ j, j < l.length → 0 < j → b ≤ parentIdx j → parentIdx j ≠ i →
        ¬ dom key reverse (nth l j) (nth l (parentIdx j))) →
      (0 < i → b ≤ parentIdx i → ∀ j, j < l.length → parentIdx j = i →
        ¬ dom key reverse (nth l j) (nth l (parentIdx i))) →
      ∀ j, j < l.length → 0 < j → b ≤ parentIdx j →
        ¬ dom key reverse (nth (siftDownF key reverse fuel l i) j)
          (nth (siftDownF key reverse fuel l i) (parentIdx j)) := by
  intro fuel
  induction fuel with
  | zero =>
    intro i l hlen hbi hR hG j hj hj0 hbp
    by_cases hpj : parentIdx j = i
    · exfalso
      rcases child_cases hj0 hpj with h | h <;> omega
    · exact hR j hj hj0 hbp hpj
  | succ fuel ih =>
    intro i l hlen hbi hR hG
    simp only [siftDownF]
    by_cases hc1 : 2 * i + 2 < l.length ∧ dom key reverse (nth l (2 * i + 2)) (nth l (2 * i + 1))
    · rw [if_pos hc1]
      obtain ⟨hrn, hdrl⟩ := hc1
      have hiln : i < l.length := by omega
      have hlfn : 2 * i + 1 < l.length := by omega
      by_cases hcd : dom key reverse (nth l (2 * i + 2)) (nth l i)
      · rw [if_pos hcd]
        have main := ih (2 * i + 2) (swapL l i (2 * i + 2))
          (by rw [length_swapL]; omega) (by omega) ?_ ?_
        · intro j hj hj0 hbp
          exact main j (by rw [length_swapL]; exact hj) hj0 hbp
        · -- region pairs not below `2i+2` hold after the swap
          intro j hj hj0 hbp hpj
          rw [length_swapL] at hj
          by_cases hji : j = i
          · subst hji
            have hlhs : nth (swapL l j (2 * j + 2)) j = nth l (2 * j + 2) :=
              nth_swapL_fst hiln hrn
            have hpjj : parentIdx j ≠ j := ne_of_lt (parentIdx_lt hj0)
            have hrhs : nth (swapL l j (2 * j + 2)) (parentIdx j) = nth l (parentIdx j) :=
              nth_swapL_other hpjj (by have := parentIdx_lt hj0; omega)
            rw [hlhs, hrhs]
            exact hG hj0 hbp (2 * j + 2) hrn (parentIdx_right j)
          · by_cases hjr : j = 2 * i + 2
            · subst hjr
              rw [parentIdx_right]
              have hlhs : nth (swapL l i (2 * i + 2)) (2 * i + 2) = nth l i :=
                nth_swapL_snd hrn
              have hrhs : nth (swapL l i (2 * i + 2)) i = nth l (2 * i + 2) :=
                nth_swapL_fst hiln hrn
              rw [hlhs, hrhs]
              exact dom_asymm hcd
            · by_cases hjl : j = 2 * i + 1
              · subst hjl
                rw [parentIdx_left]
                have hlhs : nth (swapL l i (2 * i + 2)) (2 * i + 1) = nth l (2 * i + 1) :=
                  nth_swapL_other (by omega) (by omega)
                have hrhs : nth (swapL l i (2 * i + 2)) i = nth l (2 * i + 2) :=
                  nth_swapL_fst hiln hrn
                rw [hlhs, hrhs]
                exact dom_asymm hdrl
              · have hpji : parentIdx j ≠ i := fun he =>
                  (child_cases hj0 he).elim (fun h => hjl h) (fun h => hjr h)
                have hlhs : nth (swapL l i (2 * i + 2)) j = nth l j :=
                  nth_swapL_other hji hjr
                have hrhs : nth (swapL l i (2 * i + 2)) (parentIdx j) = nth l (parentIdx j) :=
                  nth_swapL_other hpji hpj
                rw [hlhs, hrhs]
                exact hR j hj hj0 hbp hpji
        · -- no child of `2i+2` dominates its parent after the swap
          intro hrt0 hbrt j hj hpj
          rw [length_swapL] at hj
          have hj0 : 0 < j := by
            rcases Nat.eq_zero_or_pos j with h0 | h0
            · exfalso
              rw [h0, show parentIdx 0 = 0 from rfl] at hpj
              omega
            · exact h0
          have hjgt : 2 * i + 2 < j := by
            have := parentIdx_lt hj0
            omega
          rw [parentIdx_right]
          have hlhs : nth (swapL l i (2 * i + 2)) j = nth l j :=
            nth_swapL_other (by omega) (by omega)
          have hrhs : nth (swapL l i (2 * i + 2)) i = nth l (2 * i + 2) :=
            nth_swapL_fst hiln hrn
          rw [hlhs, hrhs]
          have h := hR j hj hj0 (by omega) (by omega)
          rw [hpj] at h
          exact h
      · rw [if_neg hcd]
        intro j hj hj0 hbp
        by_cases hpj : parentIdx j = i
        · rcases child_cases hj0 hpj with h | h
          · subst h
            rw [parentIdx_left]
            exact not_dom_of_dom_not_dom hcd hdrl
          · subst h
            rw [parentIdx_right]
            exact hcd
        · exact hR j hj hj0 hbp hpj
    · rw [if_neg hc1]
      have hrtd : 2 * i + 2 < l.length →
          ¬ dom key reverse (nth l (2 * i + 2)) (nth l (2 * i + 1)) :=
        fun hrn hd => hc1 ⟨hrn, hd⟩
      by_cases hc2 : 2 * i + 1 < l.length
      · rw [if_pos hc2]
        have hiln : i < l.length := by omega
        by_cases hcd : dom key reverse (nth l (2 * i + 1)) (nth l i)
        · rw [if_pos hcd]
          have main := ih (2 * i + 1) (swapL l i (2 * i + 1))
            (by rw [length_swapL]; omega) (by omega) ?_ ?_
          · intro j hj hj0 hbp
            exact main j (by rw [length_swapL]; exact hj) hj0 hbp
          · -- region pairs not below `2i+1` hold after the swap
            intro j hj hj0 hbp hpj
            rw [length_swapL] at hj
            by_cases hji : j = i
            · subst hji
              have hlhs : nth (swapL l j (2 * j + 1)) j = nth l (2 * j + 1) :=
                nth_swapL_fst hiln hc2
              have hpjj : parentIdx j ≠ j := ne_of_lt (parentIdx_lt hj0)
              have hrhs : nth (swapL l j (2 * j + 1)) (parentIdx j) = nth l (parentIdx j) :=
                nth_swapL_other hpjj (by have := parentIdx_lt hj0; omega)
              rw [hlhs, hrhs]
              exact hG hj0 hbp (2 * j + 1) hc2 (parentIdx_left j)
            · by_cases hjl : j = 2 * i + 1
              · subst hjl
                rw [parentIdx_left]
                have hlhs : nth (swapL l i (2 * i + 1)) (2 * i + 1) = nth l i :=
                  nth_swapL_snd hc2
                have hrhs : nth (swapL l i (2 * i + 1)) i = nth l (2 * i + 1) :=
                  nth_swapL_fst hiln hc2
                rw [hlhs, hrhs]
                exact dom_asymm hcd
              · by_cases hjr : j = 2 * i + 2
                · subst hjr
                  rw [parentIdx_right]
                  have hlhs : nth (swapL l i (2 * i + 1)) (2 * i + 2) = nth l (2 * i + 2) :=
                    nth_swapL_other (by omega) (by omega)
                  have hrhs : nth (swapL l i (2 * i + 1)) i = nth l (2 * i + 1) :=
                    nth_swapL_fst hiln hc2
                  rw [hlhs, hrhs]
                  exact hrtd hj
                · have hpji : parentIdx j ≠ i := fun he =>
                    (child_cases hj0 he).elim (fun h => hjl h) (fun h => hjr h)
                  have hlhs : nth (swapL l i (2 * i + 1)) j = nth l j :=
                    nth_swapL_other hji hjl
                  have hrhs : nth (swapL l i (2 * i + 1)) (parentIdx j) = nth l (parentIdx j) :=
                    nth_swapL_other hpji hpj
                  rw [hlhs, hrhs]
                  exact hR j hj hj0 hbp hpji
          · -- no child of `2i+1` dominates its parent after the swap
            intro hlf0 hblf j hj hpj
            rw [length_swapL] at hj
            have hj0 : 0 < j := by
              rcases Nat.eq_zero_or_pos j with h0 | h0
              · exfalso
                rw [h0, show parentIdx 0 = 0 from rfl] at hpj
                omega
              · exact h0
            have hjgt : 2 * i + 1 < j := by
              have := parentIdx_lt hj0
              omega
            rw [parentIdx_left]
            have hlhs : nth (swapL l i (2 * i + 1)) j = nth l j :=
              nth_swapL_other (by omega) (by omega)
            have hrhs : nth (swapL l i (2 * i + 1)) i = nth l (2 * i + 1) :=
              nth_swapL_fst hiln hc2
            rw [hlhs, hrhs]
            have h := hR j hj hj0 (by omega) (by omega)
            rw [hpj] at h
            exact h
        · rw [if_neg hcd]
          intro j hj hj0 hbp
          by_cases hpj : parentIdx j = i
          · rcases child_cases hj0 hpj with h | h
            · subst h
              rw [parentIdx_left]
              exact hcd
            · subst h
              rw [parentIdx_right]
              exact not_dom_trans (hrtd hj) hcd
          · exact hR j hj hj0 hbp hpj
      · rw [if_neg hc2]
        intro j hj hj0 hbp
        by_cases hpj : parentIdx j = i
        · exfalso
          rcases child_cases hj0 hpj with h | h <;> omega
        · exact hR j hj hj0 hbp hpj

/-! ## Lemmas: the public queue operations keep the invariant -/

theorem length_siftDown (key : α → κ) (reverse : Bool) (l : List α) (i : ℕ) :
    (siftDown key reverse l i).length = l.length := by
  unfold siftDown
  exact length_siftDownF key reverse l.length l i

theorem siftDownF_of_isHeap (key : α → κ) (reverse : Bool) :
    ∀ (fuel : ℕ) (l : List α) (i : ℕ), IsHeap key reverse l →
      siftDownF key reverse fuel l i = l := by
  intro fuel
  induction fuel with
  | zero => intro l i _; rfl
  | succ fuel ih =>
    intro l i h
    simp only [siftDownF]
    by_cases hc1 : 2 * i + 2 < l.length ∧
        dom key reverse (nth l (2 * i + 2)) (nth l (2 * i + 1))
    · rw [if_pos hc1]
      have h2 := h (2 * i + 2) hc1.1 (by omega)
      rw [parentIdx_right] at h2
      rw [if_neg h2]
    · rw [if_neg hc1]
      by_cases hc2 : 2 * i + 1 < l.length
      · rw [if_pos hc2]
        have h1 := h (2 * i + 1) hc2 (by omega)
        rw [parentIdx_left] at h1
        rw [if_neg h1]
      · rw [if_neg hc2]

theorem siftUpF_no_swap (key : α → κ) (reverse : Bool) (fuel : ℕ) (l : List α) (i : ℕ)
    (h : ¬ (0 < i ∧ i < l.length ∧ dom key reverse (nth l i) (nth l (parentIdx i)))) :
    siftUpF key reverse fuel l i = l := by
  cases fuel with
  | zero => rfl
  | succ fuel =>
    simp only [siftUpF]
    rw [if_neg h]

theorem isHeap_heapify_aux (key : α → κ) (reverse : Bool) :
    ∀ (m : ℕ) (l : List α),
      (∀ j, j < l.length → 0 < j → m ≤ parentIdx j →
        ¬ dom key reverse (nth l j) (nth l (parentIdx j))) →
      IsHeap key reverse ((List.range m).reverse.foldl (siftDown key reverse) l) := by
  intro m
  induction m with
  | zero =>
    intro l h j hj hj0
    exact h j hj hj0 (Nat.zero_le _)
  | succ m ih =>
    intro l h
    rw [List.range_succ, List.reverse_append, List.reverse_singleton, List.singleton_append,
      List.foldl_cons]
    apply ih
    intro j hj hj0 hm
    rw [length_siftDown] at hj
    have hreg := reg_siftDownF key reverse m l.length m l (by omega) (le_refl m) ?_ ?_
    · exact hreg j hj hj0 hm
    · intro j' hj' hj0' hm' hne
      exact h j' hj' hj0' (by omega)
    · intro hm0 hbm
      exfalso
      have := parentIdx_lt hm0
      omega

theorem isHeap_heapify (key : α → κ) (reverse : Bool) (l : List α) :
    IsHeap key reverse (heapify key reverse l) := by
  unfold heapify
  apply isHeap_heapify_aux
  intro j hj hj0 hm
  exfalso
  unfold parentIdx at hm
  omega

theorem isHeap_pushPQ (key : α → κ) (reverse : Bool) {l : List α} (x : α)
    (h : IsHeap key reverse l) : IsHeap key reverse (pushPQ key reverse l x) := by
  unfold pushPQ siftUp
  apply isHeap_siftUpF key reverse l.length l.length _ (le_refl _)
  · intro j hj hj0 hji
    rw [List.length_append, List.length_singleton] at hj
    have hjl : j < l.length := by omega
    have hpl : parentIdx j < l.length := lt_trans (parentIdx_lt hj0) hjl
    rw [nth_append_left hjl, nth_append_left hpl]
    exact h j hjl hj0
  · intro h0 j hj hpjl
    exfalso
    rw [List.length_append, List.length_singleton] at hj
    unfold parentIdx at hpjl
    omega

theorem isHeap_removeAt (key : α → κ) (reverse : Bool) {l : List α} (i : ℕ)
    (h : IsHeap key reverse l) : IsHeap key reverse (removeAt key reverse l i) := by
  unfold removeAt
  by_cases hemp : l.isEmpty
  · rw [if_pos hemp]
    exact h
  · rw [if_neg hemp]
    by_cases hi : i < l.length
    · rw [if_pos hi]
      have hlen : ((l.set i (nth l (l.length - 1))).dropLast).length = l.length - 1 := by
        simp
      have hnth_ne : ∀ j, j ≠ i → j < l.length - 1 →
          nth ((l.set i (nth l (l.length - 1))).dropLast) j = nth l j := by
        intro j hji hj
        rw [nth_dropLast (by simpa using hj), nth_set_ne (Ne.symm hji)]
      have hnth_i : i < l.length - 1 →
          nth ((l.set i (nth l (l.length - 1))).dropLast) i = nth l (l.length - 1) := by
        intro hi'
        rw [nth_dropLast (by simpa using hi'), nth_set_self hi]
      by_cases hs : 0 < i ∧ i < ((l.set i (nth l (l.length - 1))).dropLast).length ∧
          dom key reverse (nth ((l.set i (nth l (l.length - 1))).dropLast) i)
            (nth ((l.set i (nth l (l.length - 1))).dropLast) (parentIdx i))
      · -- the replacement dominates its parent: sift_up already restores the
        -- heap, and sift_down on a heap does nothing
        obtain ⟨hi0, hicore, hdom⟩ := hs
        rw [hlen] at hicore
        have hpicore : parentIdx i < l.length - 1 := lt_of_lt_of_le (parentIdx_lt hi0) (by omega)
        have hdoml : dom key reverse (nth l (l.length - 1)) (nth l (parentIdx i)) := by
          rw [hnth_i hicore, hnth_ne (parentIdx i) (ne_of_lt (parentIdx_lt hi0)) hpicore] at hdom
          exact hdom
        have hup : IsHeap key reverse
            (siftUp key reverse ((l.set i (nth l (l.length - 1))).dropLast) i) := by
          unfold siftUp
          apply isHeap_siftUpF key reverse i i _ (le_refl i)
          · intro j hj hj0 hji
            rw [hlen] at hj
            by_cases hpj : parentIdx j = i
            · rw [hnth_ne j hji hj, hpj, hnth_i hicore]
              have hold : ¬ dom key reverse (nth l j) (nth l (parentIdx i)) := by
                have h₁ := h j (by omega) hj0
                rw [hpj] at h₁
                exact not_dom_trans h₁ (h i hi hi0)
              exact not_dom_of_not_dom_dom hold hdoml
            · rw [hnth_ne j hji hj,
                hnth_ne (parentIdx j) hpj (lt_trans (parentIdx_lt hj0) hj)]
              exact h j (by omega) hj0
          · intro h0 j hj hpj
            rw [hlen] at hj
            have hj0 : 0 < j := by
              rcases Nat.eq_zero_or_pos j with h00 | h00
              · exfalso
                rw [h00, show parentIdx 0 = 0 from rfl] at hpj
                omega
              · exact h00
            have hjne : j ≠ i := by
              have := parentIdx_lt hj0
              omega
            rw [hnth_ne j hjne hj,
              hnth_ne (parentIdx i) (ne_of_lt (parentIdx_lt h0)) hpicore]
            have h₁ := h j (by omega) hj0
            rw [hpj] at h₁
            exact not_dom_trans h₁ (h i hi hi0)
        rw [show siftDown key reverse
            (siftUp key reverse ((l.set i (nth l (l.length - 1))).dropLast) i) i =
            siftUp key reverse ((l.set i (nth l (l.length - 1))).dropLast) i from
          siftDownF_of_isHeap key reverse _ _ i hup]
        exact hup
      · -- the replacement does not dominate its parent: sift_up does
        -- nothing and sift_down restores the heap
        have hupid : siftUp key reverse ((l.set i (nth l (l.length - 1))).dropLast) i =
            (l.set i (nth l (l.length - 1))).dropLast := siftUpF_no_swap key reverse i _ i hs
        rw [hupid]
        intro j hj hj0
        rw [length_siftDown] at hj
        unfold siftDown
        apply reg_siftDownF key reverse 0 _ i _ (by omega) (Nat.zero_le i) ?_ ?_ j hj hj0
          (Nat.zero_le _)
        · -- pairs not below `i` (including the one above `i`) hold
          intro j' hj' hj0' _ hpj'
          by_cases hji' : j' = i
          · subst hji'
            exact fun hd => hs ⟨hj0', hj', hd⟩
          · rw [hlen] at hj'
            rw [hnth_ne j' hji' hj',
              hnth_ne (parentIdx j') hpj' (lt_trans (parentIdx_lt hj0') hj')]
            exact h j' (by omega) hj0'
        · -- no child of `i` dominates `i`'s parent
          intro hi0 _ j' hj' hpj'
          rw [hlen] at hj'
          have hj0' : 0 < j' := by
            rcases Nat.eq_zero_or_pos j' with h00 | h00
            · exfalso
              rw [h00, show parentIdx 0 = 0 from rfl] at hpj'
              omega
            · exact h00
          have hjgt : i < j' := by
            have := parentIdx_lt hj0'
            omega
          have hpicore : parentIdx i < l.length - 1 := by
            have := parentIdx_lt hi0
            omega
          rw [hnth_ne j' (by omega) hj',
            hnth_ne (parentIdx i) (ne_of_lt (parentIdx_lt hi0)) hpicore]
          have h₁ := h j' (by omega) hj0'
          rw [hpj'] at h₁
          exact not_dom_trans h₁ (h i hi hi0)
    · rw [if_neg hi]
      exact h

theorem isHeap_stepPQ (key : α → κ) (reverse : Bool) {l : List α} (op : PQOp α)
    (h : IsHeap key reverse l) : IsHeap key reverse (stepPQ key reverse l op) := by
  cases op with
  | push x => exact isHeap_pushPQ key reverse x h
  | pop =>
    simp only [stepPQ, popPQ]
    by_cases hemp : l.isEmpty
    · rw [if_pos hemp]
      exact h
    · rw [if_neg hemp]
      exact isHeap_removeAt key reverse 0 h
  | remove i => exact isHeap_removeAt key reverse i h

theorem isHeap_runPQ (key : α → κ) (reverse : Bool) (init : List α) (ops : List (PQOp α)) :
    IsHeap key reverse (runPQ key reverse init ops) := by
  unfold runPQ
  have main : ∀ (ops' : List (PQOp α)) (l : List α), IsHeap key reverse l →
      IsHeap key reverse (ops'.foldl (stepPQ key reverse) l) := by
    intro ops'
    induction ops' with
    | nil => intro l h; exact h
    | cons op rest ih =>
      intro l h
      exact ih _ (isHeap_stepPQ key reverse op h)
  exact main ops _ (isHeap_heapify key reverse init)

theorem noChildDom_of_isHeap {key : α → κ} {reverse : Bool} {l : List α}
    (h : IsHeap key reverse l) : NoChildDom key reverse l := by
  intro i
  constructor
  · intro hlf
    have := h (2 * i + 1) hlf (by omega)
    rw [parentIdx_left] at this
    exact this
  · intro hrt
    have := h (2 * i + 2) hrt (by omega)
    rw [parentIdx_right] at this
    exact this

/-! ## Lemmas: repeatedly popping a copy lists the contents in the
configured order -/

theorem set_nth_self : ∀ (l : List α) (i : ℕ), l.set i (nth l i) = l := by
  intro l
  induction l with
  | nil => intro i; rfl
  | cons b t ih =>
    intro i
    cases i with
    | zero => rfl
    | succ i =>
      show b :: t.set i (nth t i) = b :: t
      rw [ih i]

theorem cons_nth_set_perm : ∀ (t : List α) (k : ℕ) (a : α), k < t.length →
    (nth t k :: t.set k a).Perm (a :: t) := by
  intro t
  induction t with
  | nil => intro k a hk; simp at hk
  | cons b t' ih =>
    intro k a hk
    cases k with
    | zero =>
      simp only [nth, List.getD_cons_zero, List.set_cons_zero]
      exact List.Perm.swap a b t'
    | succ k =>
      simp only [nth, List.getD_cons_succ, List.set_cons_succ]
      have s1 : (t'.getD k default :: b :: t'.set k a).Perm
          (b :: t'.getD k default :: t'.set k a) :=
        List.Perm.swap b (t'.getD k default) (t'.set k a)
      have s2 : (b :: t'.getD k default :: t'.set k a).Perm (b :: a :: t') :=
        List.Perm.cons b (ih k a (by simpa using hk))
      have s3 : (b :: a :: t').Perm (a :: b :: t') := List.Perm.swap a b t'
      exact (s1.trans s2).trans s3

theorem swapL_perm {l : List α} {i j : ℕ} (hi : i < l.length) (hj : j < l.length) :
    (swapL l i j).Perm l := by
  rcases eq_or_ne i j with hij | hij
  · subst hij
    rw [swapL, List.set_set, set_nth_self]
  · have hA : nth (l.set i (nth l j)) j = nth l j := nth_set_ne hij
    have h₁ := cons_nth_set_perm (l.set i (nth l j)) j (nth l i) (by simpa using hj)
    rw [hA] at h₁
    have h₂ := cons_nth_set_perm l i (nth l j) hi
    exact (h₁.trans h₂).cons_inv

theorem siftUpF_perm (key : α → κ) (reverse : Bool) :
    ∀ (fuel : ℕ) (l : List α) (i : ℕ), (siftUpF key reverse fuel l i).Perm l := by
  intro fuel
  induction fuel with
  | zero => intro l i; exact List.Perm.refl l
  | succ fuel ih =>
    intro l i
    simp only [siftUpF]
    by_cases hc : 0 < i ∧ i < l.length ∧ dom key reverse (nth l i) (nth l (parentIdx i))
    · rw [if_pos hc]
      exact (ih _ _).trans (swapL_perm hc.2.1 (lt_trans (parentIdx_lt hc.1) hc.2.1))
    · rw [if_neg hc]

theorem siftDownF_perm (key : α → κ) (reverse : Bool) :
    ∀ (fuel : ℕ) (l : List α) (i : ℕ), (siftDownF key reverse fuel l i).Perm l := by
  intro fuel
  induction fuel with
  | zero => intro l i; exact List.Perm.refl l
  | succ fuel ih =>
    intro l i
    simp only [siftDownF]
    by_cases hc1 : 2 * i + 2 < l.length ∧
        dom key reverse (nth l (2 * i + 2)) (nth l (2 * i + 1))
    · rw [if_pos hc1]
      by_cases hcd : dom key reverse (nth l (2 * i + 2)) (nth l i)
      · rw [if_pos hcd]
        exact (ih _ _).trans (swapL_perm (by omega) hc1.1)
      · rw [if_neg hcd]
    · rw [if_neg hc1]
      by_cases hc2 : 2 * i + 1 < l.length
      · rw [if_pos hc2]
        by_cases hcd : dom key reverse (nth l (2 * i + 1)) (nth l i)
        · rw [if_pos hcd]
          exact (ih _ _).trans (swapL_perm (by omega) hc2)
        · rw [if_neg hcd]
      · rw [if_neg hc2]

theorem last_cons_dropLast_perm :
    ∀ (t : List α), t ≠ [] → (nth t (t.length - 1) :: t.dropLast).Perm t := by
  intro t
  induction t with
  | nil => intro h; exact absurd rfl h
  | cons b t' ih =>
    intro _
    rcases eq_or_ne t' [] with ht' | ht'
    · subst ht'
      exact List.Perm.refl [b]
    · have hlen : (b :: t').length - 1 = t'.length := by simp
      have hnth : nth (b :: t') ((b :: t').length - 1) = nth t' (t'.length - 1) := by
        rw [hlen]
        have hpos : 0 < t'.length := List.length_pos.mpr ht'
        obtain ⟨k, hk⟩ : ∃ k, t'.length = k + 1 := ⟨t'.length - 1, by omega⟩
        rw [hk]
        simp [nth]
      rw [hnth, List.dropLast_cons_of_ne_nil ht']
      have s1 : (nth t' (t'.length - 1) :: b :: t'.dropLast).Perm
          (b :: nth t' (t'.length - 1) :: t'.dropLast) :=
        List.Perm.swap b (nth t' (t'.length - 1)) t'.dropLast
      exact s1.trans (List.Perm.cons b (ih ht'))

theorem removeAt_zero_perm (key : α → κ) (reverse : Bool) {l : List α} (h : l ≠ []) :
    (nth l 0 :: removeAt key reverse l 0).Perm l := by
  unfold removeAt
  rw [if_neg (by simpa using h), if_pos (List.length_pos.mpr h)]
  have hup : siftUp key reverse ((l.set 0 (nth l (l.length - 1))).dropLast) 0 =
      (l.set 0 (nth l (l.length - 1))).dropLast := rfl
  rw [hup]
  have hperm := siftDownF_perm key reverse
    ((l.set 0 (nth l (l.length - 1))).dropLast).length
    ((l.set 0 (nth l (l.length - 1))).dropLast) 0
  refine List.Perm.trans (List.Perm.cons _ hperm) ?_
  -- it remains: nth l 0 :: (l.set 0 (nth l (l.length - 1))).dropLast ~ l
  rcases l with _ | ⟨a, t⟩
  · exact absurd rfl h
  · rcases eq_or_ne t [] with ht | ht
    · subst ht
      exact List.Perm.refl [a]
    · have hset : (a :: t).set 0 (nth (a :: t) ((a :: t).length - 1)) =
          nth t (t.length - 1) :: t := by
        have hlen : (a :: t).length - 1 = t.length := by simp
        rw [hlen]
        have hpos : 0 < t.length := List.length_pos.mpr ht
        obtain ⟨k, hk⟩ : ∃ k, t.length = k + 1 := ⟨t.length - 1, by omega⟩
        rw [hk]
        simp [nth]
      rw [hset, List.dropLast_cons_of_ne_nil ht]
      show (nth (a :: t) 0 :: nth t (t.length - 1) :: t.dropLast).Perm (a :: t)
      have h0 : nth (a :: t) 0 = a := rfl
      rw [h0]
      exact List.Perm.cons a (last_cons_dropLast_perm t ht)

theorem length_removeAt_zero (key : α → κ) (reverse : Bool) {l : List α} (h : l ≠ []) :
    (removeAt key reverse l 0).length = l.length - 1 := by
  have := (removeAt_zero_perm key reverse h).length_eq
  simp only [List.length_cons] at this
  omega

theorem isHeap_root (key : α → κ) (reverse : Bool) {l : List α} (h : IsHeap key reverse l) :
    ∀ j, j < l.length → ¬ dom key reverse (nth l j) (nth l 0) := by
  intro j
  induction j using Nat.strong_induction_on with
  | _ j ih =>
    intro hj
    rcases Nat.eq_zero_or_pos j with h0 | h0
    · subst h0
      exact not_dom_refl key reverse _
    · exact not_dom_trans (h j hj h0)
        (ih (parentIdx j) (parentIdx_lt h0) (lt_trans (parentIdx_lt h0) hj))

theorem popListF_perm (key : α → κ) (reverse : Bool) :
    ∀ (fuel : ℕ) (l : List α), l.length = fuel → (popListF key reverse fuel l).Perm l := by
  intro fuel
  induction fuel with
  | zero =>
    intro l h
    rw [List.length_eq_zero.mp h]
    exact List.Perm.refl _
  | succ fuel ih =>
    intro l hlen
    have hne : l ≠ [] := by
      intro h
      rw [h] at hlen
      simp at hlen
    simp only [popListF]
    rw [if_neg (by simpa using hne)]
    have hrl : (removeAt key reverse l 0).length = fuel := by
      rw [length_removeAt_zero key reverse hne]
      omega
    exact (List.Perm.cons _ (ih _ hrl)).trans (removeAt_zero_perm key reverse hne)

theorem popList_perm (key : α → κ) (reverse : Bool) (l : List α) :
    (popList key reverse l).Perm l :=
  popListF_perm key reverse l.length l rfl

theorem popListF_pairwise (key : α → κ) (reverse : Bool) :
    ∀ (fuel : ℕ) (l : List α), l.length = fuel → IsHeap key reverse l →
      List.Pairwise (fun a b => ¬ dom key reverse b a) (popListF key reverse fuel l) := by
  intro fuel
  induction fuel with
  | zero => intro l _ _; exact List.Pairwise.nil
  | succ fuel ih =>
    intro l hlen h
    have hne : l ≠ [] := by
      intro h0
      rw [h0] at hlen
      simp at hlen
    simp only [popListF]
    rw [if_neg (by simpa using hne)]
    have hrl : (removeAt key reverse l 0).length = fuel := by
      rw [length_removeAt_zero key reverse hne]
      omega
    constructor
    · intro y hy
      have hyR : y ∈ removeAt key reverse l 0 :=
        (popListF_perm key reverse fuel _ hrl).mem_iff.mp hy
      have hyl : y ∈ l := (removeAt_zero_perm key reverse hne).mem_iff.mp
        (List.mem_cons_of_mem _ hyR)
      obtain ⟨k, hk, hky⟩ := List.mem_iff_getElem.mp hyl
      have hnth : nth l k = y := by
        rw [nth, List.getD_eq_getElem l default hk, hky]
      rw [← hnth]
      exact isHeap_root key reverse h k hk
    · exact ih _ hrl (isHeap_removeAt key reverse 0 h)

theorem popList_pairwise (key : α → κ) (reverse : Bool) {l : List α} (h : IsHeap key reverse l) :
    List.Pairwise (fun a b => ¬ dom key reverse b a) (popList key reverse l) :=
  popListF_pairwise key reverse l.length l rfl h

/-! ## Lemmas: the shortest-path loops read the graph but never write it -/

theorem dijkstraLoop_graph : ∀ (fuel : ℕ)
    (st : Graph × (ℕ → WithTop ℤ) × (ℕ → Option ℕ) × List ℕ),
    (dijkstraLoop fuel st).1 = st.1 := by
  intro fuel
  induction fuel with
  | zero => intro st; rfl
  | succ fuel ih =>
    intro st
    simp only [dijkstraLoop]
    split
    · rfl
    · exact ih _

theorem bfRounds_graph : ∀ (k : ℕ) (st : Graph × (ℕ → WithTop ℤ) × (ℕ → Option ℕ)),
    (bfRounds k st).1 = st.1 := by
  intro k
  induction k with
  | zero => intro st; rfl
  | succ k ih => intro st; exact ih _

/-! ## Lemmas: after `n - 1` relaxation rounds over an upward-oriented edge
list, no edge still admits improvement

`edges()` of a mirror-well-formed graph orients every undirected edge
from its smaller-valued endpoint to its larger-valued endpoint (proved
further below), so relaxation converges to the fixpoint `Fdist` and the
negative-cycle detection sweep of `bellman_ford` always passes. -/

theorem bfRounds_succ : ∀ (k : ℕ) (st : Graph × (ℕ → WithTop ℤ) × (ℕ → Option ℕ)),
    bfRounds (k + 1) st =
      ((bfRounds k st).1, (edgesG (bfRounds k st).1).foldl relaxBF (bfRounds k st).2) := by
  intro k
  induction k with
  | zero => intro st; rfl
  | succ k ih =>
    intro st
    have hstep : bfRounds (k + 1 + 1) st =
        bfRounds (k + 1) (st.1, (edgesG st.1).foldl relaxBF st.2) := rfl
    rw [hstep, ih]
    rfl

theorem relaxBF_le (st : (ℕ → WithTop ℤ) × (ℕ → Option ℕ)) (e : UEdge) (v : ℕ) :
    (relaxBF st e).1 v ≤ st.1 v := by
  unfold relaxBF
  split
  · rename_i hlt
    by_cases hv : v = e.dest
    · subst hv
      simp only [if_pos rfl]
      exact le_of_lt hlt
    · simp only [if_neg hv]
      exact le_refl _
  · exact le_refl _

theorem foldl_relaxBF_le (E' : List UEdge) :
    ∀ (st : (ℕ → WithTop ℤ) × (ℕ → Option ℕ)) (v : ℕ),
      ((E'.foldl relaxBF st).1 v) ≤ st.1 v := by
  induction E' with
  | nil => intro st v; exact le_refl _
  | cons e rest ih =>
    intro st v
    exact le_trans (ih (relaxBF st e) v) (relaxBF_le st e v)

theorem relaxBF_dest_le (st : (ℕ → WithTop ℤ) × (ℕ → Option ℕ)) (e : UEdge) :
    (relaxBF st e).1 e.dest ≤ st.1 e.origin + (e.weight : WithTop ℤ) := by
  unfold relaxBF
  split
  · simp only [if_pos rfl]
    exact le_refl _
  · rename_i hge
    exact le_of_not_lt hge

theorem foldl_relaxBF_edge (E' : List UEdge) :
    ∀ (st : (ℕ → WithTop ℤ) × (ℕ → Option ℕ)) (e : UEdge), e ∈ E' →
      ((E'.foldl relaxBF st).1 e.dest) ≤ st.1 e.origin + (e.weight : WithTop ℤ) := by
  induction E' with
  | nil => intro st e he; exact absurd he (List.not_mem_nil e)
  | cons e₀ rest ih =>
    intro st e he
    rcases List.mem_cons.mp he with he₀ | hrest
    · subst he₀
      exact le_trans (foldl_relaxBF_le rest (relaxBF st e) e.dest) (relaxBF_dest_le st e)
    · exact le_trans (ih (relaxBF st e₀) e hrest)
        (add_le_add_right (relaxBF_le st e₀ e.origin) _)

theorem le_foldr_min (L : List (WithTop ℤ)) (x : WithTop ℤ) (h : ∀ a ∈ L, x ≤ a) :
    x ≤ L.foldr min ⊤ := by
  induction L with
  | nil => exact le_top
  | cons a rest ih =>
    exact le_min (h a (List.mem_cons_self a rest))
      (ih (fun b hb => h b (List.mem_cons_of_mem a hb)))

theorem foldr_min_le (L : List (WithTop ℤ)) (a : WithTop ℤ) (h : a ∈ L) :
    L.foldr min ⊤ ≤ a := by
  induction L with
  | nil => exact absurd h (List.not_mem_nil a)
  | cons b rest ih =>
    rcases List.mem_cons.mp h with hb | hrest
    · subst hb
      exact min_le_left _ _
    · exact le_trans (min_le_right _ _) (ih hrest)

theorem Fdist_le_init (E : List UEdge) (o v : ℕ) : Fdist E o v ≤ initL o v := by
  rw [Fdist]
  exact min_le_left _ _

theorem Fdist_le_edge (E : List UEdge) (o : ℕ) {e : UEdge} (he : e ∈ E)
    (hlt : e.origin < e.dest) :
    Fdist E o e.dest ≤ Fdist E o e.origin + (e.weight : WithTop ℤ) := by
  conv_lhs => rw [Fdist]
  refine le_trans (min_le_right _ _) (foldr_min_le _ _ ?_)
  have hef : e ∈ E.filter (fun x => x.dest == e.dest && decide (x.origin < e.dest)) := by
    rw [List.mem_filter]
    exact ⟨he, by simp [hlt]⟩
  exact List.mem_map.mpr ⟨⟨e, hef⟩, List.mem_attach _ _, rfl⟩

theorem Fdist_le_foldl (E : List UEdge) (o : ℕ)
    (hE : ∀ e ∈ E, e.origin < e.dest) :
    ∀ (E'' : List UEdge), (∀ e ∈ E'', e ∈ E) →
      ∀ (st : (ℕ → WithTop ℤ) × (ℕ → Option ℕ)), (∀ v, Fdist E o v ≤ st.1 v) →
        ∀ v, Fdist E o v ≤ (E''.foldl relaxBF st).1 v := by
  intro E''
  induction E'' with
  | nil => intro _ st h v; exact h v
  | cons e rest ih =>
    intro hsub st h v
    refine ih (fun e' he' => hsub e' (List.mem_cons_of_mem e he')) (relaxBF st e) ?_ v
    intro u
    unfold relaxBF
    split
    · by_cases hu : u = e.dest
      · subst hu
        simp only [if_pos rfl]
        exact le_trans (Fdist_le_edge E o (hsub e (List.mem_cons_self e rest))
          (hE e (hsub e (List.mem_cons_self e rest))))
          (add_le_add_right (h e.origin) _)
      · simp only [if_neg hu]
        exact h u
    · exact h u

theorem rank_lt_rank {V : List ℕ} : ∀ {u v : ℕ}, u ∈ V → u < v → rankV V u < rankV V v := by
  unfold rankV
  induction V with
  | nil => intro u v hu _; exact absurd hu (List.not_mem_nil u)
  | cons a T ih =>
    intro u v hu huv
    rw [List.countP_cons, List.countP_cons]
    have hmono : T.countP (fun w => decide (w < u)) ≤ T.countP (fun w => decide (w < v)) :=
      List.countP_mono_left (fun x _ hx => by
        simp only [decide_eq_true_eq] at *
        omega)
    have hhead : (if (decide (a < u) : Bool) then 1 else 0) ≤
        (if (decide (a < v) : Bool) then 1 else 0) := by
      by_cases hau : a < u
      · rw [if_pos (by simpa using hau), if_pos (by simp [lt_trans hau huv])]
      · rw [if_neg (by simpa using hau)]
        omega
    rcases List.mem_cons.mp hu with ha | hT
    · subst ha
      rw [if_neg (by simp), if_pos (by simpa using huv)]
      omega
    · have := ih hT huv
      omega

theorem rank_le_card {V : List ℕ} {v : ℕ} (hv : v ∈ V) : rankV V v ≤ V.length - 1 := by
  unfold rankV
  induction V with
  | nil => exact absurd hv (List.not_mem_nil v)
  | cons a T ih =>
    rw [List.countP_cons]
    rcases List.mem_cons.mp hv with ha | hT
    · subst ha
      have := List.countP_le_length (p := fun w => decide (w < v)) (l := T)
      rw [if_neg (by simp)]
      simp only [List.length_cons]
      omega
    · have h1 := ih hT
      have h2 : T ≠ [] := List.ne_nil_of_mem hT
      have h3 : 0 < T.length := List.length_pos.mpr h2
      have hhead : (if (decide (a < v) : Bool) then 1 else 0) ≤ 1 := by
        split <;> omega
      simp only [List.length_cons]
      omega

theorem rank_zero_no_incoming {V : List ℕ} {v u : ℕ} (hu : u ∈ V) (huv : u < v)
    (h0 : rankV V v = 0) : False := by
  unfold rankV at h0
  have := List.countP_eq_zero.mp h0 u hu
  simp only [decide_eq_true_eq] at this
  exact this huv

theorem labels_le_init (g : Graph) (o : ℕ) : ∀ (k : ℕ) (v : ℕ),
    (bfRounds k (g, initL o, fun _ => none)).2.1 v ≤ initL o v := by
  intro k
  induction k with
  | zero => intro v; exact le_refl _
  | succ k ih =>
    intro v
    rw [bfRounds_succ]
    exact le_trans (foldl_relaxBF_le _ _ v) (ih v)

theorem Fdist_le_labels (g : Graph) (o : ℕ)
    (hE : ∀ e ∈ edgesG g, e.origin < e.dest) : ∀ (k : ℕ) (v : ℕ),
    Fdist (edgesG g) o v ≤ (bfRounds k (g, initL o, fun _ => none)).2.1 v := by
  intro k
  induction k with
  | zero => intro v; exact Fdist_le_init _ _ v
  | succ k ih =>
    intro v
    rw [bfRounds_succ, bfRounds_graph]
    exact Fdist_le_foldl (edgesG g) o hE (edgesG g) (fun _ he => he) _ ih v

theorem labels_le_Fdist (g : Graph) (o : ℕ)
    (hE : ∀ e ∈ edgesG g, e.origin < e.dest)
    (hEV : ∀ e ∈ edgesG g, e.origin ∈ vertexValues g) :
    ∀ (k : ℕ) (v : ℕ), v ∈ vertexValues g → rankV (vertexValues g) v ≤ k →
      (bfRounds k (g, initL o, fun _ => none)).2.1 v ≤ Fdist (edgesG g) o v := by
  intro k
  induction k with
  | zero =>
    intro v hv hrank
    have hfil : (edgesG g).filter (fun e => e.dest == v && decide (e.origin < v)) = [] := by
      rw [List.filter_eq_nil_iff]
      intro e he
      simp only [Bool.and_eq_true, beq_iff_eq, decide_eq_true_eq, not_and]
      intro _ horig
      exact absurd (rank_zero_no_incoming (hEV e he) horig (Nat.le_zero.mp hrank)) id
    show initL o v ≤ Fdist (edgesG g) o v
    rw [Fdist, hfil]
    simp
  | succ k ih =>
    intro v hv hrank
    conv_rhs => rw [Fdist]
    refine le_min ?_ (le_foldr_min _ _ ?_)
    · exact le_trans (labels_le_init g o (k + 1) v) (le_refl _)
    · intro a ha
      obtain ⟨⟨e, hef⟩, _, rfl⟩ := List.mem_map.mp ha
      have heE : e ∈ edgesG g := (List.mem_filter.mp hef).1
      have hprops := (List.mem_filter.mp hef).2
      simp only [Bool.and_eq_true, beq_iff_eq, decide_eq_true_eq] at hprops
      obtain ⟨hdest, horig⟩ := hprops
      have hstep : (bfRounds (k + 1) (g, initL o, fun _ => none)).2.1 v ≤
          (bfRounds k (g, initL o, fun _ => none)).2.1 e.origin + (e.weight : WithTop ℤ) := by
        rw [bfRounds_succ]
        have hmem : e ∈ edgesG ((bfRounds k (g, initL o, fun _ => none)).1) := by
          rw [bfRounds_graph]
          exact heE
        have h := foldl_relaxBF_edge (edgesG ((bfRounds k (g, initL o, fun _ => none)).1))
          ((bfRounds k (g, initL o, fun _ => none)).2) e hmem
        rw [hdest] at h
        exact h
      have hIH : (bfRounds k (g, initL o, fun _ => none)).2.1 e.origin ≤
          Fdist (edgesG g) o e.origin := by
        refine ih e.origin (hEV e heE) ?_
        have := rank_lt_rank (hEV e heE) horig
        omega
      exact le_trans hstep (add_le_add_right hIH _)

theorem bf_detection_passes (g : Graph) (o : ℕ)
    (hE : ∀ e ∈ edgesG g, e.origin < e.dest)
    (hEV : ∀ e ∈ edgesG g, e.origin ∈ vertexValues g)
    (hDV : ∀ e ∈ edgesG g, e.dest ∈ vertexValues g) :
    ∀ e ∈ edgesG g,
      (bfRounds (g.adj.length - 1) (g, initL o, fun _ => none)).2.1 e.dest ≤
        (bfRounds (g.adj.length - 1) (g, initL o, fun _ => none)).2.1 e.origin +
          (e.weight : WithTop ℤ) := by
  intro e he
  have hlenV : (vertexValues g).length = g.adj.length := by
    unfold vertexValues
    exact List.length_map _ _
  have hrank : rankV (vertexValues g) e.dest ≤ g.adj.length - 1 := by
    have := rank_le_card (hDV e he)
    omega
  have h1 := labels_le_Fdist g o hE hEV (g.adj.length - 1) e.dest (hDV e he) hrank
  exact le_trans h1 (le_trans (Fdist_le_edge (edgesG g) o he (hE e he))
    (add_le_add_right (Fdist_le_labels g o hE (g.adj.length - 1) e.origin) _))

/-! ## Lemmas: `edges()` of a mirror-well-formed graph orients every edge
from its smaller-valued endpoint to its larger-valued endpoint

`edges()` unions the per-vertex incident sets in ascending value order;
the first directional copy inserted owns the edge, and that copy's origin
is the smaller endpoint because its reverse copy would otherwise already
be present and make `set.union` drop it. -/

theorem mem_pySetAdd {s : List UEdge} (e x : UEdge) (h : x ∈ s) : x ∈ pySetAdd s e := by
  unfold pySetAdd
  split
  · exact h
  · exact List.mem_append_left _ h

theorem edges_inner_fold (v : ℕ) (es : List UEdge) (P : UEdge → Prop)
    (hes : ∀ e ∈ es, e.origin = v ∧ e.origin ≠ e.dest)
    (hPes : ∀ e ∈ es, P e) :
    ∀ (es' : List UEdge) (acc : List UEdge), (∀ e ∈ es', e ∈ es) →
      (∀ x ∈ acc, x.origin < x.dest ∧ x.origin ≤ v ∧ P x) →
      (∀ e ∈ es, e.dest < e.origin → (⟨e.dest, e.origin, e.weight⟩ : UEdge) ∈ acc) →
      (∀ x ∈ es'.foldl pySetAdd acc, x.origin < x.dest ∧ x.origin ≤ v ∧ P x) ∧
        (∀ x ∈ acc, x ∈ es'.foldl pySetAdd acc) ∧
        (∀ e ∈ es', e.origin < e.dest → e ∈ es'.foldl pySetAdd acc) := by
  intro es'
  induction es' with
  | nil =>
    intro acc _ hI1 _
    exact ⟨hI1, fun x hx => hx, fun e he _ => absurd he (List.not_mem_nil e)⟩
  | cons e₀ rest ih =>
    intro acc hsub hI1 hI2
    have he₀es : e₀ ∈ es := hsub e₀ (List.mem_cons_self e₀ rest)
    obtain ⟨ho, hne⟩ := hes e₀ he₀es
    rcases lt_or_gt_of_ne hne with hinc | hdec
    · -- increasing copy: nothing equal is present, so it is appended
      have hnone : acc.any (fun x => edgeEqb x e₀) = false := by
        rw [List.any_eq_false]
        intro x hx
        obtain ⟨_, hxv, _⟩ := hI1 x hx
        intro hcontra
        unfold edgeEqb at hcontra
        simp only [Bool.and_eq_true, beq_iff_eq] at hcontra
        omega
      have hstep : (e₀ :: rest).foldl pySetAdd acc = rest.foldl pySetAdd (acc ++ [e₀]) := by
        rw [List.foldl_cons]
        unfold pySetAdd
        rw [hnone]
        rfl
      have hI1' : ∀ x ∈ acc ++ [e₀], x.origin < x.dest ∧ x.origin ≤ v ∧ P x := by
        intro x hx
        rcases List.mem_append.mp hx with hxa | hxe
        · exact hI1 x hxa
        · rw [List.mem_singleton.mp hxe]
          exact ⟨hinc, le_of_eq ho, hPes e₀ he₀es⟩
      have hI2' : ∀ e ∈ es, e.dest < e.origin →
          (⟨e.dest, e.origin, e.weight⟩ : UEdge) ∈ acc ++ [e₀] :=
        fun e he hd => List.mem_append_left _ (hI2 e he hd)
      obtain ⟨o1, o2, o3⟩ := ih (acc ++ [e₀])
        (fun e he => hsub e (List.mem_cons_of_mem e₀ he)) hI1' hI2'
      rw [hstep]
      refine ⟨o1, fun x hx => o2 x (List.mem_append_left _ hx), ?_⟩
      intro e he hlt
      rcases List.mem_cons.mp he with he₀' | hrest
      · rw [he₀']
        exact o2 e₀ (List.mem_append_right _ (List.mem_singleton_self e₀))
      · exact o3 e hrest hlt
    · -- downward copy: its reverse copy is already present, so it is dropped
      have hm := hI2 e₀ he₀es hdec
      have hfound : acc.any (fun x => edgeEqb x e₀) = true := by
        rw [List.any_eq_true]
        refine ⟨⟨e₀.dest, e₀.origin, e₀.weight⟩, hm, ?_⟩
        unfold edgeEqb
        simp
      have hstep : (e₀ :: rest).foldl pySetAdd acc = rest.foldl pySetAdd acc := by
        rw [List.foldl_cons]
        unfold pySetAdd
        rw [hfound]
        rfl
      rw [hstep]
      obtain ⟨o1, o2, o3⟩ := ih acc (fun e he => hsub e (List.mem_cons_of_mem e₀ he)) hI1 hI2
      refine ⟨o1, o2, ?_⟩
      intro e he hlt
      rcases List.mem_cons.mp he with he₀' | hrest
      · exfalso
        rw [he₀'] at hlt
        omega
      · exact o3 e hrest hlt

theorem edges_outer_fold (g : Graph) (hwf : WFgraph g) :
    ∀ (todo done : List (ℕ × List UEdge)) (acc : List UEdge),
      sortedAdj g = done ++ todo →
      List.Pairwise (fun a b => a.1 < b.1) (done ++ todo) →
      (∀ x ∈ acc, x.origin < x.dest ∧ ∃ p ∈ done, x ∈ p.2) →
      (∀ p ∈ done, ∀ e ∈ p.2, e.origin < e.dest → e ∈ acc) →
      ∀ x ∈ todo.foldl (fun acc p => p.2.foldl pySetAdd acc) acc,
        x.origin < x.dest ∧ ∃ p ∈ sortedAdj g, x ∈ p.2 := by
  have hperm : (sortedAdj g).Perm g.adj := List.perm_insertionSort _ _
  intro todo
  induction todo with
  | nil =>
    intro done acc hS _ hI1 _ x hx
    obtain ⟨hlt, p, hp, hxp⟩ := hI1 x hx
    exact ⟨hlt, p, by rw [hS]; exact List.mem_append_left _ hp, hxp⟩
  | cons pv todo' ih =>
    intro done acc hS hpw hI1 hI2 x hx
    obtain ⟨v, es⟩ := pv
    have hmemAdj : (v, es) ∈ g.adj := by
      refine hperm.mem_iff.mp ?_
      rw [hS]
      exact List.mem_append_right _ (List.mem_cons_self _ _)
    have hWFes := hwf.2 (v, es) hmemAdj
    rw [List.pairwise_append] at hpw
    obtain ⟨hpwD, hpwVT, hcross⟩ := hpw
    have hdone_lt : ∀ q ∈ done, q.1 < v :=
      fun q hq => hcross q hq _ (List.mem_cons_self _ _)
    have htodo_gt : ∀ p ∈ todo', v < p.1 := (List.pairwise_cons.mp hpwVT).1
    have hdone_adj : ∀ p ∈ done, p ∈ g.adj := by
      intro p hp
      refine hperm.mem_iff.mp ?_
      rw [hS]
      exact List.mem_append_left _ hp
    have hacc_bound : ∀ y ∈ acc, y.origin < y.dest ∧ y.origin ≤ v ∧
        (∃ p ∈ done ++ [(v, es)], y ∈ p.2) := by
      intro y hy
      obtain ⟨hlt, p, hp, hyp⟩ := hI1 y hy
      have hyo : y.origin = p.1 := (hwf.2 p (hdone_adj p hp) y hyp).1
      exact ⟨hlt, by rw [hyo]; exact le_of_lt (hdone_lt p hp),
        p, List.mem_append_left _ hp, hyp⟩
    have hmirror : ∀ e ∈ es, e.dest < e.origin →
        (⟨e.dest, e.origin, e.weight⟩ : UEdge) ∈ acc := by
      intro e he hdec
      obtain ⟨ho, _, q, hq, hq1, hmir⟩ := hWFes e he
      have hqS : q ∈ sortedAdj g := hperm.mem_iff.mpr hq
      rw [hS] at hqS
      rcases List.mem_append.mp hqS with hqd | hqvt
      · exact hI2 q hqd _ hmir (by simpa using hdec)
      · exfalso
        rcases List.mem_cons.mp hqvt with hqv | hqt
        · have hq1v : q.1 = v := by rw [hqv]
          simp only at ho
          omega
        · have := htodo_gt q hqt
          simp only at ho
          omega
    obtain ⟨hO1, hO2, hO3⟩ := edges_inner_fold v es
      (fun x => ∃ p ∈ done ++ [(v, es)], x ∈ p.2)
      (fun e he => ⟨(hWFes e he).1, (hWFes e he).2.1⟩)
      (fun e he => ⟨(v, es), List.mem_append_right _ (List.mem_singleton_self _), he⟩)
      es acc (fun e he => he) hacc_bound hmirror
    refine ih (done ++ [(v, es)]) (es.foldl pySetAdd acc) ?_ ?_ ?_ ?_ x hx
    · rw [hS, List.append_assoc, List.singleton_append]
    · rw [List.append_assoc, List.singleton_append]
      rw [List.pairwise_append]
      exact ⟨hpwD, hpwVT, hcross⟩
    · intro y hy
      obtain ⟨hlt, _, hP⟩ := hO1 y hy
      exact ⟨hlt, hP⟩
    · intro p hp e' he' hlt
      rcases List.mem_append.mp hp with hpd | hpv
      · exact hO2 e' (hI2 p hpd e' he' hlt)
      · rw [List.mem_singleton.mp hpv] at he'
        exact hO3 e' he' hlt

theorem edgesG_oriented (g : Graph) (hwf : WFgraph g) :
    ∀ x ∈ edgesG g, x.origin < x.dest ∧
      x.origin ∈ vertexValues g ∧ x.dest ∈ vertexValues g := by
  have hperm : (sortedAdj g).Perm g.adj := List.perm_insertionSort _ _
  haveI : IsTotal (ℕ × List UEdge) (fun a b => a.1 ≤ b.1) := ⟨fun a b => le_total a.1 b.1⟩
  haveI : IsTrans (ℕ × List UEdge) (fun a b => a.1 ≤ b.1) :=
    ⟨fun _ _ _ h1 h2 => le_trans h1 h2⟩
  have hsorted : List.Pairwise (fun (a b : ℕ × List UEdge) => a.1 ≤ b.1) (sortedAdj g) :=
    List.sorted_insertionSort (fun (a b : ℕ × List UEdge) => a.1 ≤ b.1) g.adj
  have hnodupS : ((sortedAdj g).map Prod.fst).Nodup :=
    ((hperm.map Prod.fst).nodup_iff).mpr hwf.1
  have hpairne : List.Pairwise (fun (a b : ℕ × List UEdge) => a.1 ≠ b.1) (sortedAdj g) :=
    (List.pairwise_map.mp hnodupS)
  have hpw : List.Pairwise (fun (a b : ℕ × List UEdge) => a.1 < b.1) (sortedAdj g) :=
    (hsorted.and hpairne).imp (fun hab => lt_of_le_of_ne hab.1 hab.2)
  intro x hx
  have hmain := edges_outer_fold g hwf (sortedAdj g) [] [] rfl (by simpa using hpw)
    (by simp) (by simp) x hx
  obtain ⟨hlt, p, hpS, hxp⟩ := hmain
  have hpadj : p ∈ g.adj := hperm.mem_iff.mp hpS
  obtain ⟨hxo, _, q, hq, hq1, _⟩ := hwf.2 p hpadj x hxp
  refine ⟨hlt, ?_, ?_⟩
  · rw [hxo]
    exact List.mem_map.mpr ⟨p, hpadj, rfl⟩
  · exact List.mem_map.mpr ⟨q, hq, hq1⟩


theorem bf_detection_all (g : Graph) (o : ℕ) (hwf : WFgraph g) :
    ((edgesG g).all
      (fun e => decide ((bfRounds (g.adj.length - 1) (g, initL o, fun _ => none)).2.1 e.dest ≤
        (bfRounds (g.adj.length - 1) (g, initL o, fun _ => none)).2.1 e.origin +
          (e.weight : WithTop ℤ)))) = true := by
  rw [List.all_eq_true]
  intro e he
  exact decide_eq_true (bf_detection_passes g o
    (fun e' he' => (edgesG_oriented g hwf e' he').1)
    (fun e' he' => (edgesG_oriented g hwf e' he').2.1)
    (fun e' he' => (edgesG_oriented g hwf e' he').2.2) e he)

/-! ## The claims -/

/-- Claim C1: the spec says that after `add_edge(a, b, w)` succeeds,
`has_edge(a, b, w)` returns true.  The code refutes it: on the graph with
vertices 1 and 2, `add_edge(1, 2, 0)` succeeds, yet `has_edge(1, 2, 0)`
returns false, because `UndirectedEdge.__eq__` only matches the
direction-swapped copy and the probe edge `(1, 2, 0)` compares unequal to
the stored same-direction copy `(1, 2, 0)`. -/
theorem claim_C1 :
    (addEdge (addVertex (addVertex g0 1 none 0) 2 none 0) 1 2 0).1 = .ok () ∧
    gE0 = (addEdge (addVertex (addVertex g0 1 none 0) 2 none 0) 1 2 0).2 ∧
    hasEdge gE0 1 2 0 = (.ok false, gE0) := by
  decide

/-- Claim C2: the spec requires undirected edges over the same endpoint
pair with equal weight to compare equal and hash identically regardless
of direction, in particular two same-direction copies.  Hashing is
symmetric and the swapped copies do compare equal, but two
separately-constructed same-direction copies compare UNEQUAL:
`UndirectedEdge.__eq__` tests only `origin == other.destination and
destination == other.origin`. -/
theorem claim_C2 :
    (∀ (ht : ℤ) (hv : ℕ → ℤ) (hw : ℤ → ℤ) (e : UEdge),
      edgeHash ht hv hw e = edgeHash ht hv hw ⟨e.dest, e.origin, e.weight⟩) ∧
    edgeEqb ⟨1, 2, 0⟩ ⟨2, 1, 0⟩ = true ∧
    edgeEqb ⟨1, 2, 0⟩ ⟨1, 2, 0⟩ = false := by
  refine ⟨?_, by decide, by decide⟩
  intro ht hv hw e
  unfold edgeHash
  ring

/-- Claim C3 (corrected): `view()` returns the raw internal array, NOT
the sequence obtained by repeatedly popping a copy.  On any heap-ordered
state (every state the public API produces), popping repeatedly does list
the contents in the configured order — a permutation of the contents that
is sorted under the ordering — while `view()` is the identity on the
underlying array. -/
theorem claim_C3 (key : α → κ) (reverse : Bool) (l : List α) (h : IsHeap key reverse l) :
    viewPQ l = l ∧ (popList key reverse l).Perm l ∧
      List.Pairwise (fun a b => ¬ dom key reverse b a) (popList key reverse l) :=
  ⟨rfl, popList_perm key reverse l, popList_pairwise key reverse h⟩

theorem claim_C3_witness :
    IsHeap (fun x : ℤ => x) false [5, 4, 2, 1, 3] ∧
      (viewPQ [5, 4, 2, 1, 3] = ([5, 4, 2, 1, 3] : List ℤ) ∧
        (popList (fun x : ℤ => x) false [5, 4, 2, 1, 3]).Perm [5, 4, 2, 1, 3] ∧
        List.Pairwise (fun a b => ¬ dom (fun x : ℤ => x) false b a)
          (popList (fun x : ℤ => x) false [5, 4, 2, 1, 3])) :=
  ⟨by decide, claim_C3 (fun x : ℤ => x) false [5, 4, 2, 1, 3] (by decide)⟩

theorem claim_C3_counterexample :
    heapify (fun x : ℤ => x) false [1, 2, 3, 4, 5] = [5, 4, 3, 1, 2] ∧
    popList (fun x : ℤ => x) false [5, 4, 3, 1, 2] = [5, 4, 3, 2, 1] ∧
    viewPQ ([5, 4, 3, 1, 2] : List ℤ) ≠ [5, 4, 3, 2, 1] := by
  decide

/-- Claim C4: the spec says that on a graph with no negative edge weight,
`dijkstra(o, d)` and `bellman_ford(o, d)` return paths of equal total
weight whenever `d` is reachable from `o`.  Refuted on the two-vertex
graph 1—2 with the single edge of weight 5: from origin 2,
`dijkstra` returns the path `[2, 1]` of weight 5, while `bellman_ford`
returns `[1]` of weight 0, because `edges()` deduplicates the two
directional copies down to the copy oriented 1→2 and the relaxation
never reaches vertex 1 from origin 2. -/
theorem claim_C4 :
    (∀ p ∈ gW5.adj, ∀ e ∈ p.2, 0 ≤ e.weight) ∧
    isReachable gW5 2 1 = (.ok true, gW5) ∧
    dijkstra gW5 2 1 = (.ok [2, 1], gW5) ∧
    bellmanFord gW5 2 1 = (.ok [1], gW5) ∧
    pathWeight gW5 [2, 1] = 5 ∧
    pathWeight gW5 [1] = 0 := by
  decide

/-- Claim C5: the spec says `bellman_ford` raises `NegativeWeightCycle`
iff a negative-total-weight cycle is reachable from the origin.  Refuted
on the two-vertex graph 1—2 with the single undirected edge of weight
-5: the cycle 1-2-1 has weight -10 and is reachable from 1, yet
`bellman_ford(1, 2)` returns the path `[1, 2]` without raising, because
`edges()` keeps only the copy oriented 1→2 and the detection sweep over
that one-directional list passes. -/
theorem claim_C5 :
    isWalkB gNeg [1, 2, 1] = true ∧
    pathWeight gNeg [1, 2, 1] = -10 ∧
    isReachable gNeg 1 2 = (.ok true, gNeg) ∧
    bellmanFord gNeg 1 2 = (.ok [1, 2], gNeg) := by
  decide

/-- Claim C6: after any sequence of push, pop and remove operations
starting from construction (with O(n) heapification of the initial
collection), the heap invariant holds: no position with children is
dominated, under the configured ordering, by either child. -/
theorem claim_C6 (key : α → κ) (reverse : Bool) (init : List α) (ops : List (PQOp α)) :
    NoChildDom key reverse (runPQ key reverse init ops) :=
  noChildDom_of_isHeap (isHeap_runPQ key reverse init ops)

/-- Claim C7: the spec says `add_edge` is idempotent for identical edges.
Refuted: re-adding the existing edge (1, 2, 0) succeeds and appends a
second copy to BOTH incident sets, because the stored same-direction copy
compares unequal to the new one under `UndirectedEdge.__eq__`, so
`set.add` does not deduplicate it. -/
theorem claim_C7 :
    edgeListOf gE0 1 = [⟨1, 2, 0⟩] ∧
    edgeListOf gE0 2 = [⟨2, 1, 0⟩] ∧
    (addEdge gE0 1 2 0).1 = .ok () ∧
    edgeListOf (addEdge gE0 1 2 0).2 1 = [⟨1, 2, 0⟩, ⟨1, 2, 0⟩] ∧
    edgeListOf (addEdge gE0 1 2 0).2 2 = [⟨2, 1, 0⟩, ⟨2, 1, 0⟩] := by
  decide

/-- Claim C8 (corrected): on a MIRROR-WELL-FORMED graph, each of
`has_edge`, `add_edge`, `is_reachable`, `dijkstra` and `bellman_ford`
referencing an absent vertex value — in either argument position —
raises `VertexNotFound` and leaves the graph unchanged.  The
well-formedness hypothesis is needed: on a graph whose mirror invariant
`add_vertex` has broken, `bellman_ford` can raise `NegativeWeightCycle`
instead even though its destination is absent (see the counterexample). -/
theorem claim_C8 (g : Graph) (x o d : ℕ) (w : ℤ) (hwf : WFgraph g)
    (hx : containsG g x = false) :
    hasEdge g x d w = (.error .vertexNotFound, g) ∧
    hasEdge g o x w = (.error .vertexNotFound, g) ∧
    addEdge g x d w = (.error .vertexNotFound, g) ∧
    addEdge g o x w = (.error .vertexNotFound, g) ∧
    isReachable g x d = (.error .vertexNotFound, g) ∧
    isReachable g o x = (.error .vertexNotFound, g) ∧
    dijkstra g x d = (.error .vertexNotFound, g) ∧
    dijkstra g o x = (.error .vertexNotFound, g) ∧
    bellmanFord g x d = (.error .vertexNotFound, g) ∧
    bellmanFord g o x = (.error .vertexNotFound, g) := by
  refine ⟨?_, ?_, ?_, ?_, ?_, ?_, ?_, ?_, ?_, ?_⟩
  · simp [hasEdge, hx]
  · by_cases ho : containsG g o = true <;> simp [hasEdge, ho, hx]
  · simp [addEdge, hx]
  · by_cases ho : containsG g o = true <;> simp [addEdge, ho, hx]
  · simp [isReachable, hx]
  · by_cases ho : containsG g o = true <;> simp [isReachable, ho, hx]
  · simp [dijkstra, hx]
  · by_cases ho : containsG g o = true <;>
      simp [dijkstra, ho, dijkstraLoop_graph, hx]
  · simp [bellmanFord, hx]
  · have hdet := bf_detection_all g o hwf
    by_cases ho : containsG g o = true <;>
      simp [bellmanFord, ho, bfRounds_graph, hdet, hx]

theorem claim_C8_witness :
    (WFgraph gW5 ∧ containsG gW5 99 = false) ∧
      (hasEdge gW5 99 2 0 = (.error .vertexNotFound, gW5) ∧
       hasEdge gW5 1 99 0 = (.error .vertexNotFound, gW5) ∧
       addEdge gW5 99 2 0 = (.error .vertexNotFound, gW5) ∧
       addEdge gW5 1 99 0 = (.error .vertexNotFound, gW5) ∧
       isReachable gW5 99 2 = (.error .vertexNotFound, gW5) ∧
       isReachable gW5 1 99 = (.error .vertexNotFound, gW5) ∧
       dijkstra gW5 99 2 = (.error .vertexNotFound, gW5) ∧
       dijkstra gW5 1 99 = (.error .vertexNotFound, gW5) ∧
       bellmanFord gW5 99 2 = (.error .vertexNotFound, gW5) ∧
       bellmanFord gW5 1 99 = (.error .vertexNotFound, gW5)) :=
  ⟨⟨by decide, by decide⟩, claim_C8 gW5 99 1 2 0 (by decide) (by decide)⟩

theorem claim_C8_counterexample :
    containsG gBroken 4 = false ∧
    containsG gBroken 1 = true ∧
    bellmanFord gBroken 1 4 = (.error .negativeWeightCycle, gBroken) := by
  decide

/-- Claim C9: the spec says `add_vertex(value, dst, weight)` with an
existing `dst` reuses the vertex mapped to `dst` and keeps every edge of
its incident set.  Refuted: `add_vertex(3, dst=1, weight=2)` on the graph
holding the edge (1, 2, 7) REPLACES vertex 1 with a fresh empty vertex
(`self._adjacency_map[dst] = vertex_type(dst)` runs unconditionally), so
afterwards vertex 1 holds only the new edge to 3 and the copy (1, 2, 7)
is gone, while vertex 2 still holds the now-dangling mirror (2, 1, 7). -/
theorem claim_C9 :
    containsG gPre9 1 = true ∧
    edgeListOf gPre9 1 = [⟨1, 2, 7⟩] ∧
    gPost9 = addVertex gPre9 3 (some 1) 2 ∧
    edgeListOf gPost9 1 = [⟨1, 3, 2⟩] ∧
    (⟨1, 2, 7⟩ : UEdge) ∉ edgeListOf gPost9 1 ∧
    edgeListOf gPost9 2 = [⟨2, 1, 7⟩] := by
  decide

/-- Claim C10: `dijkstra` and `bellman_ford` are pure queries — whatever
they return or raise, the graph state at method exit (vertex mapping,
root, every incident edge set with its weights) equals the state at
entry, for every graph and every pair of arguments. -/
theorem claim_C10 (g : Graph) (o d : ℕ) :
    (dijkstra g o d).2 = g ∧ (bellmanFord g o d).2 = g := by
  constructor
  · unfold dijkstra
    split
    · rfl
    · simp only [dijkstraLoop_graph]
      split <;> rfl
  · unfold bellmanFord
    split
    · rfl
    · simp only [bfRounds_graph]
      split
      · split <;> rfl
      · rfl

end PyTools
